import Mathlib

/-!
Verification of the MESH semantic code-search core against its specification.

The development shallowly embeds the Go sources of the repository:

* the chunker (vectorstore chunker: ChunkFile, chunkGoCode, chunkTSCode,
  chunkByLines, getOverlapLines, estimateTokens, ...);
* the retriever scoring pipeline (vectorstore indexer + scoring:
  buildFileCandidates, calculateAdaptiveThreshold, applyHybridScoring,
  selectFilesWithinBudget, SearchWithAggregation, extractKeywords,
  calculateKeywordScore, calculatePathScore, calculateAggregateScore);
* the retriever configuration (search_config: DefaultSearchConfig);
* the incremental indexer and branch scanner decision logic
  (indexer: IndexIncremental; ollama/metadata: NeedsReindexing;
  gateway scanner: checkBranchForChanges).

Modelling conventions:

* Go strings are byte strings of code text; they are embedded as lists of
  characters (abbreviation Str below).  All string helpers used by the
  sources (strings.Split, TrimSpace, HasPrefix, Count, Index, Contains,
  Fields, ToLower for the ASCII range relevant to the sources) are defined
  structurally on Str.
* Go float32 score arithmetic is embedded over the rationals.  Every
  concrete constant appearing in the verified claims (0.05 steps, 0.15,
  0.70, 0.75, 1.01, weight tables) is exactly representable in float32 up
  to the comparisons the claims make, so the order relations coincide.
* Go int arithmetic on token budgets is embedded as Int/Nat arithmetic
  (the embedded programs only reach non-negative values, where Go's
  truncating division agrees with Nat division).
* math.Log is transcendental and its value is irrelevant to every claim
  below; calculateKeywordScore therefore takes the logarithm as an explicit
  function parameter and all theorems quantify over it.
* External collaborators (the vector store scroll/search calls, git
  queries, the filesystem) are oracles passed as function arguments;
  failure of a call is the .error/none value of the oracle.
-/

namespace Mesh

/-- Go strings, embedded as lists of characters. -/
abbrev Str := List Char

/-- Whitespace test used by strings.TrimSpace (ASCII range). -/
def isSpaceChar (c : Char) : Bool :=
  c = ' ' || c = '\t' || c = '\n' || c = '\x0b' || c = '\x0c' || c = '\r'

/-- strings.TrimSpace: drop whitespace from both ends. -/
def trimSpace (l : Str) : Str :=
  ((l.dropWhile isSpaceChar).reverse.dropWhile isSpaceChar).reverse

/-- strings.Split(s, "\n"): split into lines at every newline. -/
def splitLines : Str → List Str
  | [] => [[]]
  | c :: rest =>
    if c = '\n' then [] :: splitLines rest
    else
      match splitLines rest with
      | [] => [[c]]
      | h :: t => (c :: h) :: t

/-- strings.Count(s, sub) for a one-character sub: number of occurrences. -/
def countChar (c : Char) (l : Str) : Nat := l.countP (· = c)

/-- strings.Join(parts, "\n"). -/
def joinNL (parts : List Str) : Str := List.intercalate ['\n'] parts

/-- Auxiliary scan for strings.Index: position of the first occurrence. -/
def indexOfSubstrAux (sub : Str) : Str → Nat → Option Nat
  | [], k => if sub.isPrefixOf [] then some k else none
  | c :: t, k =>
    if sub.isPrefixOf (c :: t) then some k
    else indexOfSubstrAux sub t (k + 1)

/-- strings.Index(s, sub): byte index of the first occurrence, -1 if none. -/
def indexOfSubstr (s sub : Str) : Int :=
  match indexOfSubstrAux sub s 0 with
  | none => -1
  | some k => (k : Int)

/-- strings.Contains(s, sub). -/
def containsSubstr (s sub : Str) : Bool := decide (0 ≤ indexOfSubstr s sub)

/-- strings.HasSuffix(s, suf). -/
def hasSuffix (suf s : Str) : Bool := suf.reverse.isPrefixOf s.reverse

/-- strings.Count(s, sub): non-overlapping occurrence count (Go returns
1 + length for the empty substring). -/
def countSubstr (s sub : Str) : Nat :=
  if h : sub = [] then s.length + 1
  else
    match s with
    | [] => 0
    | c :: tail =>
      if sub.isPrefixOf (c :: tail) then 1 + countSubstr ((c :: tail).drop sub.length) sub
      else countSubstr tail sub
termination_by s.length
decreasing_by
  · simp only [List.length_drop, List.length_cons]
    have : 1 ≤ sub.length := List.length_pos.mpr h
    omega
  · simp only [List.length_cons]; omega

/-- ASCII lower-casing of one character (strings.ToLower on the ASCII
subset the sources feed it). -/
def lowerChar (c : Char) : Char :=
  if 'A' ≤ c ∧ c ≤ 'Z' then Char.ofNat (c.toNat + 32) else c

/-- strings.ToLower on the ASCII range. -/
def toLowerStr (s : Str) : Str := s.map lowerChar

/-- Decimal digits of a natural number (for fmt.Sprintf "%d"). -/
def natDigits (n : Nat) : Str :=
  (Nat.toDigits 10 n)

/-- Parse a digit string back to a number (fmt.Sscanf "%d"; an empty digit
string leaves the Go variable at its zero value). -/
def digitsToNat (l : Str) : Nat :=
  l.foldl (fun acc c => acc * 10 + (c.toNat - '0'.toNat)) 0

/-- Total characters of a line list including one newline per line: the
number of characters the chunker loops feed into their builders. -/
def sumLen1 (lines : List Str) : Nat :=
  lines.foldr (fun l a => l.length + 1 + a) 0

/-! ## Chunker (vectorstore chunker source file)

Token budget constants for the bge-m3 model. -/

def MaxTokensPerChunk : Nat := 3500

def OverlapTokens : Nat := 250

def MaxTokensWholeFile : Nat := 3200

/-- estimateTokens: conservative token count, ceil(len(text)/4)
(CharsPerTokenEstimate = 4.0). -/
def estimateTokens (text : Str) : Nat := (text.length + 3) / 4

/-- charsForTokens: token count to approximate character count. -/
def charsForTokens (tokens : Nat) : Nat := tokens * 4

/-- CodeChunk: a chunk of code with metadata.  Line numbers are Go ints. -/
structure CodeChunk where
  content : Str
  chunkIndex : Nat
  startLine : Int
  endLine : Int
  header : Str
  chunkID : Str
deriving Repr, DecidableEq, Inhabited

/-- countLines: number of newlines in the text plus one. -/
def countLines (text : Str) : Nat := countChar '\n' text + 1

/-- generateChunkID builds a stable identifier from path, start line and end
line.  The source hashes the key "path:start:end" with SHA-256 and keeps the
first 8 bytes; the hash itself is abstracted away (no verified claim depends
on it) and the key string stands in for its digest. -/
def generateChunkID (filePath : Str) (startLine endLine : Int) : Str :=
  filePath ++ [':'] ++ natDigits startLine.toNat ++ [':'] ++ natDigits endLine.toNat

/-- buildHeader: "path :: language" or "path :: language :: symbol". -/
def buildHeader (filePath language symbol : Str) : Str :=
  if symbol ≠ [] then filePath ++ " :: ".data ++ language ++ " :: ".data ++ symbol
  else filePath ++ " :: ".data ++ language

/-- Accumulator pass for strings.Fields. -/
def fieldsAux : Str → Str → List Str
  | [], acc => if acc = [] then [] else [acc.reverse]
  | c :: rest, acc =>
    if isSpaceChar c then
      if acc = [] then fieldsAux rest [] else acc.reverse :: fieldsAux rest []
    else fieldsAux rest (c :: acc)

/-- strings.Fields: split around runs of whitespace. -/
def fieldsOf (s : Str) : List Str := fieldsAux s []

/-- Strip a leading "(" receiver and return the method name, used by
extractSymbol for Go methods ("func (r *Receiver) Name(..."). -/
def extractMethodName (rest : Str) : Option Str :=
  match indexOfSubstrAux [')'] rest 0 with
  | none => none
  | some closeParen =>
    if 0 < closeParen ∧ closeParen + 1 < rest.length then
      let methodPart := trimSpace (rest.drop (closeParen + 1))
      match fieldsOf methodPart with
      | [] => none
      | name :: _ =>
        let name :=
          match indexOfSubstrAux ['('] name 0 with
          | some idx => if 0 < idx then name.take idx else name
          | none => name
        some ("func ".data ++ name)
    else none

/-- extractSymbol applied to one trimmed line (the per-line body of the
source's loop); none when the line carries no recognizable symbol. -/
def extractSymbolLine (trimmed : Str) : Option Str :=
  if "func ".data.isPrefixOf trimmed then
    let rest := trimmed.drop "func ".data.length
    if ['('].isPrefixOf rest then extractMethodName rest
    else
      match fieldsOf rest with
      | [] => none
      | name :: _ =>
        let name :=
          match indexOfSubstrAux ['('] name 0 with
          | some idx => if 0 < idx then name.take idx else name
          | none => name
        some ("func ".data ++ name)
  else if "type ".data.isPrefixOf trimmed then
    match fieldsOf trimmed with
    | _ :: name :: _ => some ("type ".data ++ name)
    | _ => none
  else if "export ".data.isPrefixOf trimmed then
    match fieldsOf trimmed with
    | _ :: p1 :: p2 :: _ => some (p1 ++ [' '] ++ p2)
    | _ => none
  else none

/-- Line scan of extractSymbol: first recognizable symbol, else empty. -/
def extractSymbolLines : List Str → Str
  | [] => []
  | line :: rest =>
    match extractSymbolLine (trimSpace line) with
    | some s => s
    | none => extractSymbolLines rest

/-- extractSymbol: first recognizable symbol over the lines of the code. -/
def extractSymbol (code : Str) : Str :=
  extractSymbolLines (splitLines code)

/-- Backward collection loop of getOverlapLines: walk indices i-1, i-2, ...
while fewer than numChars characters are collected. -/
def overlapCollect (lines : List Str) (numChars : Nat) : Nat → Nat → List Str
  | 0, _ => []
  | i + 1, chars =>
    if chars < numChars then
      let line := lines.getD i []
      line :: overlapCollect lines numChars i (chars + line.length + 1)
    else []

/-- getOverlapLines: the last numChars-worth of lines before fromIndex, in
source order, joined with newlines and ending in a newline. -/
def getOverlapLines (lines : List Str) (fromIndex : Nat) (numChars : Nat) : Str :=
  if fromIndex = 0 then []
  else joinNL (overlapCollect lines numChars fromIndex 0).reverse ++ ['\n']

/-- Loop state of the boundary-aware chunkers (chunkGoCode / chunkTSCode):
accumulated chunks, the current builder, currentLine, chunkStartLine and
chunkIndex. -/
structure BoundaryState where
  chunks : List CodeChunk
  cur : Str
  currentLine : Nat
  chunkStart : Int
  chunkIdx : Nat
deriving Repr, DecidableEq

/-- One iteration of the boundary-aware chunking loop over line i. -/
def boundaryStep (filePath langTag : Str) (isTop : Str → Bool) (maxSize overlap : Nat)
    (lines : List Str) (i : Nat) (line : Str) (st : BoundaryState) : BoundaryState :=
  let trimmed := trimSpace line
  let isTopLevel := isTop trimmed
  let willExceed := decide (maxSize < st.cur.length + line.length + 1)
  let hardLimit := decide (maxSize ≤ st.cur.length)
  let shouldSplit := (willExceed && isTopLevel) || hardLimit
  let st1 :=
    if shouldSplit && decide (0 < st.cur.length) then
      let chunkContent := st.cur
      let saved : CodeChunk :=
        { content := chunkContent, chunkIndex := st.chunkIdx,
          startLine := st.chunkStart, endLine := (st.currentLine : Int) - 1,
          header := buildHeader filePath langTag (extractSymbol chunkContent),
          chunkID := [] }
      let overlapLines := getOverlapLines lines i overlap
      let cs : Int := (i : Int) - (countChar '\n' overlapLines : Int)
      { chunks := st.chunks ++ [saved], cur := overlapLines,
        currentLine := st.currentLine,
        chunkStart := if cs < 1 then 1 else cs,
        chunkIdx := st.chunkIdx + 1 }
    else st
  { st1 with cur := st1.cur ++ line ++ ['\n'], currentLine := st1.currentLine + 1 }

/-- The boundary-aware chunking loop over all lines. -/
def boundaryLoop (filePath langTag : Str) (isTop : Str → Bool) (maxSize overlap : Nat)
    (lines : List Str) : List Str → Nat → BoundaryState → BoundaryState
  | [], _, st => st
  | line :: rest, i, st =>
    boundaryLoop filePath langTag isTop maxSize overlap lines rest (i + 1)
      (boundaryStep filePath langTag isTop maxSize overlap lines i line st)

/-- Shared body of chunkGoCode and chunkTSCode (the two source functions are
textually identical up to the isTopLevel predicate and the header language
tag): run the loop, then flush the final chunk if non-empty. -/
def chunkBoundaryAware (filePath langTag : Str) (isTop : Str → Bool)
    (content : Str) (maxSize overlap : Nat) : List CodeChunk :=
  let lines := splitLines content
  let st := boundaryLoop filePath langTag isTop maxSize overlap lines lines 0
    { chunks := [], cur := [], currentLine := 1, chunkStart := 1, chunkIdx := 0 }
  if 0 < st.cur.length then
    st.chunks ++
      [{ content := st.cur, chunkIndex := st.chunkIdx,
         startLine := st.chunkStart, endLine := (st.currentLine : Int) - 1,
         header := buildHeader filePath langTag (extractSymbol st.cur),
         chunkID := [] }]
  else st.chunks

/-- Top-level declaration test of chunkGoCode. -/
def goIsTopLevel (trimmed : Str) : Bool :=
  "func ".data.isPrefixOf trimmed || "type ".data.isPrefixOf trimmed ||
  "const ".data.isPrefixOf trimmed || "var ".data.isPrefixOf trimmed ||
  "package ".data.isPrefixOf trimmed || "import ".data.isPrefixOf trimmed

/-- Top-level declaration test of chunkTSCode. -/
def tsIsTopLevel (trimmed : Str) : Bool :=
  "export ".data.isPrefixOf trimmed || "class ".data.isPrefixOf trimmed ||
  "function ".data.isPrefixOf trimmed || "const ".data.isPrefixOf trimmed ||
  "interface ".data.isPrefixOf trimmed || "type ".data.isPrefixOf trimmed

/-- chunkGoCode: split Go code by top-level declarations. -/
def chunkGoCode (filePath content : Str) (maxSize overlap : Nat) : List CodeChunk :=
  chunkBoundaryAware filePath "go".data goIsTopLevel content maxSize overlap

/-- chunkTSCode: split TypeScript/JavaScript code by exports and classes. -/
def chunkTSCode (filePath content : Str) (maxSize overlap : Nat) : List CodeChunk :=
  chunkBoundaryAware filePath "typescript".data tsIsTopLevel content maxSize overlap

/-- Character-boundary split of a single oversized line inside chunkByLines
("for j := 0; j < len(line); j += maxSize").  Returns the emitted chunks and
the next chunk index.  The Go loop body is only reachable with maxSize > 0;
the maxSize = 0 guard merely makes the recursion total. -/
def oversizePieces (filePath language : Str) (maxSize : Nat) (startLine : Int) :
    Str → Nat → List CodeChunk × Nat
  | l, chunkIdx =>
    if h : l = [] ∨ maxSize = 0 then ([], chunkIdx)
    else
      let piece : CodeChunk :=
        { content := l.take maxSize, chunkIndex := chunkIdx,
          startLine := startLine, endLine := startLine,
          header := buildHeader filePath language [], chunkID := [] }
      let (rest, idx) := oversizePieces filePath language maxSize startLine (l.drop maxSize) (chunkIdx + 1)
      (piece :: rest, idx)
termination_by l => l.length
decreasing_by
  simp only [not_or] at h
  simp only [List.length_drop]
  have h1 : l ≠ [] := h.1
  have h2 : maxSize ≠ 0 := h.2
  have : 0 < l.length := List.length_pos.mpr h1
  omega

/-- Inner accumulation loop of chunkByLines ("take lines until maxSize").
Processes the remaining lines, returning (chunks emitted by the oversized
single-line path, the accumulated chunk, the number of lines consumed, the
next chunk index). -/
def linesTake (filePath language : Str) (maxSize : Nat) (startLine : Int) :
    List Str → Str → Nat → List CodeChunk × Str × Nat × Nat
  | [], chunk, chunkIdx => ([], chunk, 0, chunkIdx)
  | line :: rest, chunk, chunkIdx =>
    if line.length > maxSize ∧ chunk.length = 0 then
      let (pieces, idx) := oversizePieces filePath language maxSize startLine line chunkIdx
      (pieces, chunk, 1, idx)
    else if 0 < chunk.length ∧ maxSize < chunk.length + line.length + 1 then
      ([], chunk, 0, chunkIdx)
    else if maxSize ≤ chunk.length then
      ([], chunk, 0, chunkIdx)
    else
      let (pieces, chunk', consumed, idx) :=
        linesTake filePath language maxSize startLine rest (chunk ++ line ++ ['\n']) chunkIdx
      (pieces, chunk', consumed + 1, idx)

/-- Outer loop of chunkByLines.  The source advances its index i by the
consumed lines and then backtracks by overlap/50 lines (clamped to
startLine); every real iteration advances i by at least one, and the final
max with i+1 (a no-op whenever maxSize > 0, which holds at every call site)
makes the recursion total. -/
def chunkByLinesLoop (filePath language : Str) (maxSize overlap : Nat)
    (lines : List Str) : Nat → Nat → List CodeChunk
  | i, chunkIdx =>
    if hi : i < lines.length then
      let startLine := i + 1
      let r := linesTake filePath language maxSize (startLine : Int) (lines.drop i) [] chunkIdx
      let pieces := r.1
      let chunk := r.2.1
      let iNext := i + r.2.2.1
      let idx := r.2.2.2
      let endLine := iNext
      if 0 < chunk.length then
        let c : CodeChunk :=
          { content := chunk, chunkIndex := idx,
            startLine := (startLine : Int), endLine := (endLine : Int),
            header := buildHeader filePath language [], chunkID := [] }
        let overlapLines := overlap / 50
        let iBack :=
          if 0 < overlapLines ∧ iNext < lines.length
          then max (iNext - overlapLines) startLine
          else iNext
        pieces ++ c :: chunkByLinesLoop filePath language maxSize overlap lines (max iBack (i + 1)) (idx + 1)
      else
        pieces ++ chunkByLinesLoop filePath language maxSize overlap lines (max iNext (i + 1)) idx
    else []
termination_by i => lines.length - i
decreasing_by
  · omega
  · omega

/-- chunkByLines: simple line-based chunking for unsupported languages. -/
def chunkByLines (filePath content language : Str) (maxSize overlap : Nat) : List CodeChunk :=
  chunkByLinesLoop filePath language maxSize overlap (splitLines content) 0 0

/-- ChunkFile: split a file into chunks under the token budget; whole-file
chunk when the file fits, language dispatch otherwise, then drop chunks
shorter than minChunkChars = 500 and assign chunk IDs. -/
def ChunkFile (filePath content language : Str) : List CodeChunk :=
  let maxChunkChars := charsForTokens MaxTokensPerChunk
  let overlapChars := charsForTokens OverlapTokens
  let minChunkChars := 500
  let fileTokens := estimateTokens content
  if fileTokens ≤ MaxTokensWholeFile then
    let chunk : CodeChunk :=
      { content := content, chunkIndex := 0, startLine := 1,
        endLine := (countLines content : Int),
        header := buildHeader filePath language [],
        chunkID := generateChunkID filePath 1 (countLines content : Int) }
    [chunk]
  else
    let chunks :=
      if language = "go".data then
        chunkGoCode filePath content maxChunkChars overlapChars
      else if language = "typescript".data ∨ language = "javascript".data then
        chunkTSCode filePath content maxChunkChars overlapChars
      else
        chunkByLines filePath content language maxChunkChars overlapChars
    (chunks.filter (fun c => minChunkChars ≤ c.content.length)).map
      (fun c => { c with chunkID := generateChunkID filePath c.startLine c.endLine })

/-! ## Retriever configuration (search_config source file)

Scores and weights are float32 in Go and are embedded as rationals; token
and count fields are Go ints, embedded as Int (budgets) and Nat (counts,
which are non-negative at every reachable state). -/

structure SearchConfig where
  maxTokenBudget : Int
  reserveTokens : Int
  oversizeChunkLimit : Nat
  minAbsoluteScore : ℚ
  scoreDistributionPercentile : ℚ
  minFilesAfterThreshold : Nat
  initialChunkLimit : Nat
  maxFilesLimit : Nat
  semanticWeight : ℚ
  keywordWeight : ℚ
  pathWeight : ℚ
  aggregateWeight : ℚ
deriving Repr, DecidableEq

/-- DefaultSearchConfig: the configuration returned by the source. -/
def DefaultSearchConfig : SearchConfig where
  maxTokenBudget := 80000
  reserveTokens := 35000
  oversizeChunkLimit := 5
  minAbsoluteScore := 15/100
  scoreDistributionPercentile := 70/100
  minFilesAfterThreshold := 8
  initialChunkLimit := 50
  maxFilesLimit := 15
  semanticWeight := 70/100
  keywordWeight := 15/100
  pathWeight := 5/100
  aggregateWeight := 10/100

/-- EffectiveTokenBudget: available token budget after reserve. -/
def SearchConfig.effectiveTokenBudget (c : SearchConfig) : Int :=
  c.maxTokenBudget - c.reserveTokens

/-! ## Retriever scoring (scoring source file) -/

/-- SearchResult as consumed by the aggregation pipeline. -/
structure SearchResult where
  filePath : Str
  content : Str
  score : ℚ
  language : Str
  fileHash : Str
deriving Repr, DecidableEq, Inhabited

/-- FileCandidate: a file with rich scoring information. -/
structure FileCandidate where
  basePath : Str
  language : Str
  bestChunkScore : ℚ
  avgChunkScore : ℚ
  topKChunkScores : List ℚ
  chunkCount : Nat
  keywordScore : ℚ
  pathScore : ℚ
  hybridScore : ℚ
  estimatedTokens : Nat
deriving Repr, DecidableEq

/-- FileSelection: a complete file or top chunks of an oversized file. -/
structure FileSelection where
  basePath : Str
  language : Str
  score : ℚ
  isPartial : Bool
  chunkIndices : List Nat
  estimatedTokens : Nat
deriving Repr, DecidableEq

/-- Stop word table of extractKeywords (common English plus Go tokens). -/
def stopWords : List Str :=
  ["what", "how", "where", "when", "why",
   "does", "is", "are", "was", "were",
   "the", "a", "an", "in", "on", "at",
   "to", "for", "of", "with", "by", "from",
   "this", "that", "these", "those", "it", "its",
   "do", "did", "can", "could", "would", "should",
   "will", "shall", "may", "might", "must",
   "have", "has", "had", "been", "being",
   "and", "or", "but", "not", "if", "then",
   "ctx", "err", "error", "nil", "bool",
   "string", "int", "int32", "int64", "uint",
   "float", "float32", "float64", "byte", "rune",
   "func", "return", "else",
   "range", "var", "const", "type", "struct",
   "interface", "map", "slice", "array", "channel",
   "new", "make", "len", "cap", "append",
   "delete", "copy", "close", "defer", "go",
   "select", "case", "switch", "break", "continue",
   "package", "import", "export", "default",
   "config", "logger", "client", "server",
   "context", "request", "response", "handler",
   "service", "method", "function", "class"].map String.data

/-- Keyword token character test of extractKeywords (keep [a-z0-9_-]). -/
def isKeywordChar (r : Char) : Bool :=
  ('a' ≤ r && r ≤ 'z') || ('0' ≤ r && r ≤ '9') || r = '_' || r = '-'

/-- Accumulator pass of strings.FieldsFunc over the keyword separator. -/
def fieldsFuncAux : Str → Str → List Str
  | [], acc => if acc = [] then [] else [acc.reverse]
  | c :: rest, acc =>
    if isKeywordChar c then fieldsFuncAux rest (c :: acc)
    else if acc = [] then fieldsFuncAux rest [] else acc.reverse :: fieldsFuncAux rest []

/-- extractKeywords: lowercase, tokenize on non-[a-z0-9_-], keep tokens of
length > 3 that are not stop words. -/
def extractKeywords (query : Str) : List Str :=
  let words := fieldsFuncAux (toLowerStr query) []
  words.filter (fun word => 3 < word.length && ¬ stopWords.contains word)

/-- calculateKeywordScore: (matches/totalKeywords) × min(log(1+normOcc)/2, 1).
math.Log is passed in as mathLog (see the modelling conventions above). -/
def calculateKeywordScore (mathLog : ℚ → ℚ) (content : Str) (keywords : List Str)
    (fileLength : Nat) : ℚ :=
  match keywords with
  | [] => 0
  | _ :: _ =>
    let contentLower := toLowerStr content
    let mt := keywords.foldl
      (fun (mt : Nat × Nat) keyword =>
        let count := countSubstr contentLower keyword
        if 0 < count then (mt.1 + 1, mt.2 + count) else mt) (0, 0)
    let matchCount := mt.1
    let totalOccurrences := mt.2
    if matchCount = 0 then 0
    else
      let lengthNormalizer : ℚ := max ((fileLength : ℚ) / 10000) 1
      let normalizedOccurrences := (totalOccurrences : ℚ) / lengthNormalizer
      let matchRatio := (matchCount : ℚ) / (keywords.length : ℚ)
      let occurrenceBoost := mathLog (1 + normalizedOccurrences)
      matchRatio * min (occurrenceBoost / 2) 1

/-- calculatePathScore: fraction of keywords contained in the path. -/
def calculatePathScore (filePath : Str) (keywords : List Str) : ℚ :=
  match keywords with
  | [] => 0
  | _ :: _ =>
    let pathLower := toLowerStr filePath
    let matchCount := (keywords.filter (fun k => containsSubstr pathLower k)).length
    (matchCount : ℚ) / (keywords.length : ℚ)

/-- calculateAggregateScore: weights [0.5, 0.3, 0.2] over the top-K chunk
scores (the loop stops after the weight table is exhausted). -/
def calculateAggregateScore (topKScores : List ℚ) : ℚ :=
  match topKScores with
  | [] => 0
  | _ :: _ =>
    (topKScores.zip [(5 : ℚ)/10, 3/10, 2/10]).foldl (fun acc sw => acc + sw.1 * sw.2) 0

/-! ## Retriever pipeline (indexer source file, aggregation half) -/

/-- extractBasePath: strip a "#chunkN" suffix (only at index > 0). -/
def extractBasePath (filePath : Str) : Str :=
  match indexOfSubstrAux "#chunk".data filePath 0 with
  | some idx => if 0 < idx then filePath.take idx else filePath
  | none => filePath

/-- extractChunkIndex: parse N from a "#chunkN" suffix, 0 otherwise. -/
def extractChunkIndex (filePath : Str) : Nat :=
  match indexOfSubstrAux "#chunk".data filePath 0 with
  | none => 0
  | some idx => digitsToNat ((filePath.drop (idx + 6)).takeWhile Char.isDigit)

/-- Descending sort used to keep the top-3 chunk scores.  The source runs a
selection-sort; any descending sort produces the identical value list. -/
def sortScoresDesc (scores : List ℚ) : List ℚ :=
  List.insertionSort (fun a b => b ≤ a) scores

/-- Fold step of the chunk-grouping loop of buildFileCandidates: update the
candidate map (embedded as a list keyed in first-appearance order) with one
raw search result. -/
def insertRawResult (acc : List FileCandidate) (r : SearchResult) : List FileCandidate :=
  let basePath := extractBasePath r.filePath
  if acc.any (fun c => c.basePath = basePath) then
    acc.map (fun c =>
      if c.basePath = basePath then
        let c := { c with
          chunkCount := c.chunkCount + 1,
          estimatedTokens := c.estimatedTokens + estimateTokens r.content,
          bestChunkScore := if c.bestChunkScore < r.score then r.score else c.bestChunkScore }
        let scores := c.topKChunkScores ++ [r.score]
        { c with topKChunkScores :=
            if 3 < scores.length then (sortScoresDesc scores).take 3 else scores }
      else c)
  else
    acc ++ [{ basePath := basePath, language := r.language,
              bestChunkScore := r.score, avgChunkScore := 0,
              topKChunkScores := [r.score], chunkCount := 1,
              keywordScore := 0, pathScore := 0, hybridScore := 0,
              estimatedTokens := estimateTokens r.content }]

/-- First pass of buildFileCandidates: group raw chunks by base path.  The
Go map iterates in unspecified order; the embedding fixes first-appearance
order (no verified claim depends on candidate order). -/
def groupCandidates (rawResults : List SearchResult) : List FileCandidate :=
  rawResults.foldl insertRawResult []

/-- Second pass of buildFileCandidates: fetch all chunks of each candidate
(via the scroll oracle), skipping the candidate when the fetch fails, and
fill in keyword, path and average scores. -/
def buildFileCandidates (mathLog : ℚ → ℚ) (fetch : Str → Option (List SearchResult))
    (rawResults : List SearchResult) (keywords : List Str) : List FileCandidate :=
  (groupCandidates rawResults).filterMap (fun candidate =>
    match fetch candidate.basePath with
    | none => none
    | some chunks =>
      let fullContent := joinNL (chunks.map (fun c => c.content))
      some { candidate with
        keywordScore := calculateKeywordScore mathLog fullContent keywords fullContent.length,
        pathScore := calculatePathScore candidate.basePath keywords,
        avgChunkScore :=
          (candidate.topKChunkScores.foldl (fun a s => a + s) 0) /
            (candidate.topKChunkScores.length : ℚ) })

/-- Best chunk scores of the candidates, sorted ascending (the sort.Slice
inside calculateAdaptiveThreshold). -/
def sortedBestScores (candidates : List FileCandidate) : List ℚ :=
  List.insertionSort (fun a b : ℚ => a ≤ b) (candidates.map (fun c => c.bestChunkScore))

/-- Percentile index of calculateAdaptiveThreshold: int(len × percentile),
clamped to len - 1.  Go's int() truncates toward zero; the operands are
non-negative for every validated configuration, where truncation is the
floor. -/
def percentileIdxOf (candidates : List FileCandidate) (config : SearchConfig) : Nat :=
  min (⌊((candidates.map (fun c => c.bestChunkScore)).length : ℚ) *
        config.scoreDistributionPercentile⌋.toNat)
    ((candidates.map (fun c => c.bestChunkScore)).length - 1)

/-- The distribution threshold T_dist: sorted score at the percentile
index. -/
def distributionThresholdOf (candidates : List FileCandidate) (config : SearchConfig) : ℚ :=
  (sortedBestScores candidates).getD (percentileIdxOf candidates config) 0

/-- calculateAdaptiveThreshold: distribution percentile with a floor and a
minimum-survivors relaxation. -/
def calculateAdaptiveThreshold (candidates : List FileCandidate) (config : SearchConfig) : ℚ :=
  if candidates.isEmpty then config.minAbsoluteScore
  else
    let sorted := sortedBestScores candidates
    let distributionThreshold := distributionThresholdOf candidates config
    let adaptiveThreshold := max distributionThreshold config.minAbsoluteScore
    let survivors := sorted.countP (fun s => adaptiveThreshold ≤ s)
    if survivors < config.minFilesAfterThreshold ∧
        config.minFilesAfterThreshold ≤ sorted.length then
      sorted.getD (sorted.length - config.minFilesAfterThreshold) 0
    else adaptiveThreshold

/-- Pre-penalty weighted hybrid score of one candidate. -/
def hybridBase (c : FileCandidate) (semanticWeight keywordWeight pathWeight aggregateWeight : ℚ) : ℚ :=
  c.bestChunkScore * semanticWeight + c.keywordScore * keywordWeight +
    c.pathScore * pathWeight + calculateAggregateScore c.topKChunkScores * aggregateWeight

/-- Average keyword score over the candidates (applyHybridScoring). -/
def avgKeywordScoreOf (candidates : List FileCandidate) : ℚ :=
  if 0 < candidates.length then
    (candidates.foldl (fun a c => a + c.keywordScore) 0) / (candidates.length : ℚ)
  else (candidates.foldl (fun a c => a + c.keywordScore) 0)

/-- Dynamic weight adjustment of applyHybridScoring: if keywords are empty
or weak on average, the keyword weight is folded into the semantic weight. -/
def effectiveWeights (candidates : List FileCandidate) (keywords : List Str)
    (config : SearchConfig) : ℚ × ℚ :=
  if keywords.length = 0 ∨ avgKeywordScoreOf candidates < 5/100 then
    (config.semanticWeight + config.keywordWeight, 0)
  else (config.semanticWeight, config.keywordWeight)

/-- Multiplicative penalties applied to the hybrid score of one candidate
(CI workflows, large markdown, lock files). -/
def applyPenalties (c : FileCandidate) (hybrid : ℚ) : ℚ :=
  let baseLower := toLowerStr c.basePath
  let hybrid :=
    if containsSubstr baseLower ".github/workflows".data ||
        containsSubstr baseLower "bitbucket-pipelines".data ||
        hasSuffix ".gitlab-ci.yml".data baseLower then
      hybrid * (50/100)
    else hybrid
  let hybrid :=
    if hasSuffix ".md".data baseLower && decide (10000 < c.estimatedTokens) then
      hybrid * (70/100)
    else hybrid
  if containsSubstr baseLower "package-lock.json".data ||
      containsSubstr baseLower "yarn.lock".data then
    hybrid * (40/100)
  else hybrid

/-- applyHybridScoring: dynamic re-weighting, weighted hybrid score, then
penalties; only the hybridScore field of each candidate changes. -/
def applyHybridScoring (candidates : List FileCandidate) (keywords : List Str)
    (config : SearchConfig) : List FileCandidate :=
  let w := effectiveWeights candidates keywords config
  candidates.map (fun c =>
    { c with hybridScore :=
        applyPenalties c (hybridBase c w.1 w.2 config.pathWeight config.aggregateWeight) })

/-- Estimated token count of the top-K chunks of an oversized candidate
((EstimatedTokens / ChunkCount) * topKChunks, Go integer division). -/
def estimatedTopKTokens (config : SearchConfig) (c : FileCandidate) : Nat :=
  (c.estimatedTokens / c.chunkCount) * min config.oversizeChunkLimit c.chunkCount

/-- Selection loop of selectFilesWithinBudget over candidates already sorted
by hybrid score. -/
def selectLoop (config : SearchConfig) :
    List FileCandidate → List FileSelection → Nat → List FileSelection
  | [], selected, _ => selected
  | candidate :: rest, selected, cumulativeTokens =>
    if config.maxFilesLimit ≤ selected.length then selected
    else
      let remainingBudget : Int := config.effectiveTokenBudget - (cumulativeTokens : Int)
      if (candidate.estimatedTokens : Int) ≤ remainingBudget then
        selectLoop config rest
          (selected ++ [{ basePath := candidate.basePath, language := candidate.language,
                          score := candidate.hybridScore, isPartial := false,
                          chunkIndices := [], estimatedTokens := candidate.estimatedTokens }])
          (cumulativeTokens + candidate.estimatedTokens)
      else if 0 < candidate.chunkCount then
        let topKChunks := min config.oversizeChunkLimit candidate.chunkCount
        let estTopK := (candidate.estimatedTokens / candidate.chunkCount) * topKChunks
        if (estTopK : Int) ≤ remainingBudget ∧ 0 < topKChunks then
          selectLoop config rest
            (selected ++ [{ basePath := candidate.basePath, language := candidate.language,
                            score := candidate.hybridScore, isPartial := true,
                            chunkIndices := [], estimatedTokens := estTopK }])
            (cumulativeTokens + estTopK)
        else selectLoop config rest selected cumulativeTokens
      else selectLoop config rest selected cumulativeTokens

/-- selectFilesWithinBudget: sort by hybrid score descending (the Go
sort.Slice; any descending sort yields a permutation ordered the same way up
to ties) and run the budgeted selection loop. -/
def selectFilesWithinBudget (candidates : List FileCandidate) (config : SearchConfig) :
    List FileSelection :=
  let sortedCandidates :=
    List.insertionSort (fun a b : FileCandidate => b.hybridScore ≤ a.hybridScore) candidates
  selectLoop config sortedCandidates [] 0

/-- reconstructFiles: fetch the chunks of every selection, order them by
chunk index, truncate partial selections to the top oversizeChunkLimit
chunks, and concatenate the contents. -/
def reconstructFiles (config : SearchConfig) (fetch : Str → Option (List SearchResult))
    (selections : List FileSelection) : List SearchResult :=
  selections.foldl (fun results selection =>
    match fetch selection.basePath with
    | none => results
    | some chunks =>
      if chunks.isEmpty then results
      else
        let chunks := List.insertionSort
          (fun a b : SearchResult => extractChunkIndex a.filePath ≤ extractChunkIndex b.filePath)
          chunks
        let chunks :=
          if selection.isPartial then chunks.take (min config.oversizeChunkLimit chunks.length)
          else chunks
        results ++
          [{ filePath := selection.basePath,
             content := joinNL (chunks.map (fun c => c.content)),
             score := selection.score, language := selection.language,
             fileHash := (chunks.headD default).fileHash }]) []

/-- Steps 3-7 of SearchWithAggregation: candidates, adaptive threshold,
filtering, hybrid scoring and budgeted selection. -/
def searchSelections (config : SearchConfig) (mathLog : ℚ → ℚ)
    (fetch : Str → Option (List SearchResult)) (rawResults : List SearchResult)
    (keywords : List Str) : List FileSelection :=
  let candidates := buildFileCandidates mathLog fetch rawResults keywords
  let threshold := calculateAdaptiveThreshold candidates config
  let filtered := candidates.filter (fun c => threshold ≤ c.bestChunkScore)
  if filtered.isEmpty then []
  else selectFilesWithinBudget (applyHybridScoring filtered keywords config) config

/-- SearchWithAggregation: propagate a search failure, return empty on an
empty search result, otherwise run the pipeline and reconstruct files.  The
source's intermediate early returns (no candidates, none past the
threshold, empty selection) all produce the empty result, exactly as the
searchSelections composition does. -/
def searchWithAggregation (config : SearchConfig) (mathLog : ℚ → ℚ)
    (fetch : Str → Option (List SearchResult))
    (searchOutcome : Except Str (List SearchResult)) (query : Str) :
    Except Str (List SearchResult) :=
  match searchOutcome with
  | .error e => .error e
  | .ok rawResults =>
    if rawResults.isEmpty then .ok []
    else
      let keywords := extractKeywords query
      let selections := searchSelections config mathLog fetch rawResults keywords
      if selections.isEmpty then .ok []
      else .ok (reconstructFiles config fetch selections)

/-! ## Incremental indexer and branch scanner (indexer, metadata and
scanner source files)

The run is embedded as a pure function of the metadata state and an
environment of oracles: the git queries, the filesystem reads, the walk of
the repository for first-time indexing, and the language/indexability
tables of the filetypes package (which is outside the covered source set;
every theorem quantifies over those two tables). -/

/-- BranchMetadata as persisted in metadata.json. -/
structure BranchMetadata where
  repoName : Str
  branch : Str
  commitSHA : Str
  indexedAt : Nat
  fileCount : Nat
deriving Repr, DecidableEq

/-- Outcome of os.ReadFile for one changed path. -/
inductive ReadResult where
  | notExist
  | readErr
  | content (c : Str)
deriving Repr, DecidableEq

/-- Oracle environment of one incremental run (the branch head is fixed for
the duration of the scenarios the claims quantify over). -/
structure GitEnv where
  branchCommit : Except Str Str
  changedFilesSince : Str → Except Str (List Str)
  readFile : Str → ReadResult
  isCode : Str → Bool
  detectLang : Str → Str
  allFiles : List (Str × Str)
  now : Nat

/-- Externally visible store/embedding calls of a run. -/
inductive IndexAction where
  | deleteFile (path : Str)
  | indexFile (path : Str) (content : Str)
deriving Repr, DecidableEq

/-- Result of a run; panicked models a Go runtime panic (out-of-range
string slicing). -/
inductive RunResult where
  | ok
  | error (msg : Str)
  | panicked (msg : Str)
deriving Repr, DecidableEq

/-- State and trace after a run. -/
structure RunOutcome where
  meta : Option BranchMetadata
  actions : List IndexAction
  result : RunResult
deriving Repr, DecidableEq

/-- Go string slicing s[:n]: defined only when n ≤ len(s); none models the
out-of-range panic. -/
def goSlicePrefix (s : Str) (n : Nat) : Option Str :=
  if n ≤ s.length then some (s.take n) else none

/-- NeedsReindexing: true when no metadata exists or the stored commit
differs from the current branch commit; also returns the current commit. -/
def NeedsReindexing (env : GitEnv) (meta : Option BranchMetadata) :
    Except Str (Bool × Str) :=
  match env.branchCommit with
  | .error e => .error e
  | .ok currentCommit =>
    match meta with
    | none => .ok (true, currentCommit)
    | some m => .ok (m.commitSHA ≠ currentCommit, currentCommit)

/-- indexFileOrChunks: chunk the file and index every chunk (one embedding
plus one upsert per chunk, collapsed into one indexFile action). -/
def indexFileOrChunks (env : GitEnv) (relPath fileContent : Str) : List IndexAction :=
  let language := env.detectLang relPath
  let chunks := ChunkFile relPath fileContent language
  chunks.map (fun chunk =>
    let chunkPath :=
      if 1 < chunks.length then relPath ++ "#chunk".data ++ natDigits chunk.chunkIndex
      else relPath
    .indexFile chunkPath chunk.content)

/-- indexAllFiles: walk everything (env.allFiles lists the indexable files
under the 500 KB cap with their contents, as the walk callback collects
them), index in the worker pool, save metadata.  Upsert order across
workers is unspecified in the source; the embedding fixes job order. -/
def indexAllFiles (repoName branch : Str) (env : GitEnv) (currentCommit : Str) :
    RunOutcome :=
  let actions := env.allFiles.flatMap (fun job => indexFileOrChunks env job.1 job.2)
  { meta := some
      { repoName := repoName, branch := branch, commitSHA := currentCommit,
        indexedAt := env.now, fileCount := env.allFiles.length },
    actions := actions, result := .ok }

/-- Per-changed-file pass of IndexIncremental: deletions for vanished
files, pre-delete plus an index job for changed files under 500 KB. -/
def processChangedFile (env : GitEnv) (file : Str) : List IndexAction :=
  if ¬ env.isCode file then []
  else
    match env.readFile file with
    | .notExist => [.deleteFile file]
    | .readErr => []
    | .content c =>
      if 500000 < c.length then []
      else .deleteFile file :: indexFileOrChunks env file c

/-- Number of files actually enqueued (stats.Indexed of the run; per-file
store failures are not modelled, the oracles decide everything). -/
def countIndexedJobs (env : GitEnv) (changedFiles : List Str) : Nat :=
  (changedFiles.filter (fun file =>
    env.isCode file &&
      match env.readFile file with
      | .content c => decide (c.length ≤ 500000)
      | _ => false)).length

/-- IndexIncremental: the full decision structure of the source, including
the unguarded meta.CommitSHA[:8] and currentCommit[:8] log slices that run
between the changed-file query and the per-file loop. -/
def IndexIncremental (repoName branch : Str) (env : GitEnv)
    (meta0 : Option BranchMetadata) : RunOutcome :=
  if repoName = [] ∨ branch = [] then
    { meta := meta0, actions := [],
      result := .error "incremental indexing requires repoName and branch".data }
  else
    match NeedsReindexing env meta0 with
    | .error e => { meta := meta0, actions := [], result := .error e }
    | .ok (needsReindex, currentCommit) =>
      if ¬ needsReindex then { meta := meta0, actions := [], result := .ok }
      else
        match meta0 with
        | none => indexAllFiles repoName branch env currentCommit
        | some meta =>
          match env.changedFilesSince meta.commitSHA with
          | .error e => { meta := meta0, actions := [], result := .error e }
          | .ok changedFiles =>
            match goSlicePrefix meta.commitSHA 8 with
            | none =>
              { meta := meta0, actions := [],
                result := .panicked "slice bounds out of range".data }
            | some _ =>
              match goSlicePrefix currentCommit 8 with
              | none =>
                { meta := meta0, actions := [],
                  result := .panicked "slice bounds out of range".data }
              | some _ =>
                let actions := changedFiles.flatMap (processChangedFile env)
                { meta := some
                    { repoName := repoName, branch := branch,
                      commitSHA := currentCommit, indexedAt := env.now,
                      fileCount := countIndexedJobs env changedFiles },
                  actions := actions, result := .ok }

/-- The metadata state left behind by a run (SaveMetadata as pure state). -/
def runMeta (repoName branch : Str) (env : GitEnv) (meta0 : Option BranchMetadata) :
    Option BranchMetadata :=
  (IndexIncremental repoName branch env meta0).meta

/-- A sequence of IndexIncremental runs against the same environment:
runSequence n is the outcome of the (n+1)-st run. -/
def runSequence (repoName branch : Str) (env : GitEnv)
    (meta0 : Option BranchMetadata) : Nat → RunOutcome
  | 0 => IndexIncremental repoName branch env meta0
  | n + 1 => IndexIncremental repoName branch env (runSequence repoName branch env meta0 n).meta

/-- Outcome of the scanner's per-branch check. -/
inductive ScanResult where
  | ok (triggered : Bool)
  | panicked (msg : Str)
deriving Repr, DecidableEq

/-- checkBranchForChanges of the branch scanner: NeedsReindexing, early
return on error or on no change, then the unguarded meta.CommitSHA[:8] and
currentCommit[:8] log slices before triggering the re-index. -/
def checkBranchForChanges (env : GitEnv) (meta0 : Option BranchMetadata) : ScanResult :=
  match NeedsReindexing env meta0 with
  | .error _ => .ok false
  | .ok (needsReindex, currentCommit) =>
    if ¬ needsReindex then .ok false
    else
      match meta0 with
      | some m =>
        match goSlicePrefix m.commitSHA 8 with
        | none => .panicked "slice bounds out of range".data
        | some _ =>
          match goSlicePrefix currentCommit 8 with
          | none => .panicked "slice bounds out of range".data
          | some _ => .ok true
      | none =>
        match goSlicePrefix currentCommit 8 with
        | none => .panicked "slice bounds out of range".data
        | some _ => .ok true

/-- True exactly on the panicked run result. -/
def RunResult.isPanic : RunResult → Bool
  | .panicked _ => true
  | _ => false

/-- True exactly on the panicked scan result. -/
def ScanResult.isPanic : ScanResult → Bool
  | .panicked _ => true
  | _ => false

/-! ## Concrete inputs referenced by the claims -/

/-- Base paths of the raw search results in first-appearance order (the
key set of the buildFileCandidates grouping map). -/
def uniqueBasePaths (rawResults : List SearchResult) : List Str :=
  rawResults.foldl (fun acc r =>
    let basePath := extractBasePath r.filePath
    if basePath ∈ acc then acc else acc ++ [basePath]) []

/-- A "go" file consisting of one 14200-character line: large enough to be
chunked, too long for any split point. -/
def c2Content : Str := List.replicate 14200 'a'

/-- A "go" file whose first declaration line is tiny and whose second is a
13995-character func line: the first produced chunk is shorter than
MIN_CHUNK_CHARS and is dropped after index assignment. -/
def c6Content : Str := "package a\n".data ++ "func ".data ++ List.replicate 13990 'b'

/-- A candidate carrying only a best chunk score (scenario 3 of the spec). -/
def mkScoreCandidate (best : ℚ) : FileCandidate :=
  { basePath := "f".data, language := "go".data, bestChunkScore := best,
    avgChunkScore := 0, topKChunkScores := [best], chunkCount := 1,
    keywordScore := 0, pathScore := 0, hybridScore := 0, estimatedTokens := 1 }

/-- Twelve candidates with best-file scores 0.05, 0.06, ..., 0.16. -/
def c4Candidates : List FileCandidate :=
  [(5 : ℚ)/100, 6/100, 7/100, 8/100, 9/100, 10/100,
   11/100, 12/100, 13/100, 14/100, 15/100, 16/100].map mkScoreCandidate

/-- The configuration of the spec's adaptive-threshold scenario:
percentile 0.75, floor 0.15, min survivors 6. -/
def c4Config : SearchConfig :=
  { DefaultSearchConfig with
    scoreDistributionPercentile := 75/100,
    minAbsoluteScore := 15/100,
    minFilesAfterThreshold := 6 }

/-- A configuration whose weights are non-negative and sum to exactly 1.01,
the upper edge of the validated tolerance band. -/
def c7Config : SearchConfig :=
  { DefaultSearchConfig with
    semanticWeight := 70/100, keywordWeight := 15/100,
    pathWeight := 5/100, aggregateWeight := 11/100 }

/-- A candidate all of whose scoring components equal 1. -/
def c7Candidate : FileCandidate :=
  { basePath := "a.go".data, language := "go".data, bestChunkScore := 1,
    avgChunkScore := 1, topKChunkScores := [1, 1, 1], chunkCount := 3,
    keywordScore := 1, pathScore := 1, hybridScore := 0, estimatedTokens := 100 }

/-- A 40-character commit SHA. -/
def shaA : Str := List.replicate 40 'a'

/-- An environment whose branch head resolves to shaA, with no changed
files and an empty repository walk. -/
def envA : GitEnv :=
  { branchCommit := .ok shaA,
    changedFilesSince := fun _ => .ok [],
    readFile := fun _ => .notExist,
    isCode := fun _ => false,
    detectLang := fun _ => "text".data,
    allFiles := [],
    now := 0 }

/-- Metadata already at shaA. -/
def metaA : BranchMetadata :=
  { repoName := "r".data, branch := "main".data, commitSHA := shaA,
    indexedAt := 0, fileCount := 0 }

/-- A syntactically valid metadata record whose commit_sha is the 4-byte
string "HEAD" (which git resolves, so the changed-files query succeeds). -/
def metaShort : BranchMetadata :=
  { repoName := "r".data, branch := "main".data, commitSHA := "HEAD".data,
    indexedAt := 0, fileCount := 0 }

/-- A raw search result whose single chunk is far beyond the effective
token budget of the default configuration (50000 estimated tokens against
a budget of 45000). -/
def c3BigResult : SearchResult :=
  { filePath := "big.go".data, content := List.replicate 200000 'x',
    score := 9/10, language := "go".data, fileHash := [] }

/-- A harmless small raw search result. -/
def smallResult : SearchResult :=
  { filePath := "a.go".data, content := "hello".data,
    score := 1/2, language := "go".data, fileHash := [] }

/-- Logarithm oracle returning 0; sufficient for scenarios whose keyword
list is empty, where calculateKeywordScore never calls it. -/
def c3Log : ℚ → ℚ := fun _ => 0

/-- Scroll oracle returning an empty chunk list for every base path. -/
def c3Fetch : Str → Option (List SearchResult) := fun _ => some []

/-- The file candidate that buildFileCandidates produces from c3BigResult
with an empty keyword list. -/
def c3Candidate : FileCandidate :=
  { basePath := "big.go".data, language := "go".data,
    bestChunkScore := 9/10,
    avgChunkScore := (0 + 9/10 : ℚ) / ((1 : Nat) : ℚ),
    topKChunkScores := [(9 : ℚ)/10], chunkCount := 1,
    keywordScore := 0, pathScore := 0, hybridScore := 0,
    estimatedTokens := estimateTokens c3BigResult.content }

/-- The hybrid score assigned to c3Candidate by applyHybridScoring: the
keyword weight is folded into the semantic weight because the keyword list
is empty. -/
def c3HybridScore : ℚ :=
  applyPenalties c3Candidate
    (hybridBase c3Candidate
      (DefaultSearchConfig.semanticWeight + DefaultSearchConfig.keywordWeight) 0
      DefaultSearchConfig.pathWeight DefaultSearchConfig.aggregateWeight)

/-- c3Candidate after hybrid scoring. -/
def c3Hybrid : FileCandidate :=
  { c3Candidate with hybridScore := c3HybridScore }

/-- The candidates that survive the adaptive threshold (step 5 of
SearchWithAggregation, the filter inside searchSelections). -/
def thresholdFiltered (config : SearchConfig) (mathLog : ℚ → ℚ)
    (fetch : Str → Option (List SearchResult)) (rawResults : List SearchResult)
    (keywords : List Str) : List FileCandidate :=
  let candidates := buildFileCandidates mathLog fetch rawResults keywords
  candidates.filter (fun c => calculateAdaptiveThreshold candidates config ≤ c.bestChunkScore)

/-- A candidate is skipped by the budget loop of selectFilesWithinBudget
when its full token estimate exceeds the budget and the oversized top-K
fallback does not fit either (or is impossible because chunk_count = 0). -/
def candidateSkipped (config : SearchConfig) (c : FileCandidate) : Prop :=
  ¬ ((c.estimatedTokens : Int) ≤ config.effectiveTokenBudget) ∧
    (c.chunkCount = 0 ∨
      ¬ (((c.estimatedTokens / c.chunkCount * min config.oversizeChunkLimit c.chunkCount : Nat) : Int) ≤
            config.effectiveTokenBudget ∧
          0 < min config.oversizeChunkLimit c.chunkCount))

/-! # Theorems -/

/-- C1 (counterexample).  The spec table's default values disagree with
DefaultSearchConfig: the source returns max_token_budget 80000 (not 60000),
reserve_tokens 35000 (not 25000), oversize_chunk_limit 5 (not 4),
percentile 0.70 (not 0.75), min_files_after_threshold 8 (not 6) and
max_files_limit 15 (not 10). -/
theorem c1_defaults_counterexample :
    DefaultSearchConfig.maxTokenBudget = 80000 ∧
    ¬ (DefaultSearchConfig.maxTokenBudget = 60000 ∧
       DefaultSearchConfig.reserveTokens = 25000 ∧
       DefaultSearchConfig.oversizeChunkLimit = 4 ∧
       DefaultSearchConfig.minAbsoluteScore = 15/100 ∧
       DefaultSearchConfig.scoreDistributionPercentile = 75/100 ∧
       DefaultSearchConfig.minFilesAfterThreshold = 6 ∧
       DefaultSearchConfig.initialChunkLimit = 50 ∧
       DefaultSearchConfig.maxFilesLimit = 10 ∧
       DefaultSearchConfig.semanticWeight = 70/100 ∧
       DefaultSearchConfig.keywordWeight = 15/100 ∧
       DefaultSearchConfig.pathWeight = 5/100 ∧
       DefaultSearchConfig.aggregateWeight = 10/100) := by
  refine ⟨rfl, fun h => ?_⟩
  have := h.1
  norm_num [DefaultSearchConfig] at this

/-- C1 (amended).  The Retriever's default configuration values, as
actually returned by DefaultSearchConfig: max_token_budget 80000,
reserve_tokens 35000, oversize_chunk_limit 5, min_absolute_score 0.15,
score_distribution_percentile 0.70, min_files_after_threshold 8,
initial_chunk_limit 50, max_files_limit 15, and weights
0.70/0.15/0.05/0.10. -/
theorem c1_defaults :
    DefaultSearchConfig.maxTokenBudget = 80000 ∧
    DefaultSearchConfig.reserveTokens = 35000 ∧
    DefaultSearchConfig.oversizeChunkLimit = 5 ∧
    DefaultSearchConfig.minAbsoluteScore = 15/100 ∧
    DefaultSearchConfig.scoreDistributionPercentile = 70/100 ∧
    DefaultSearchConfig.minFilesAfterThreshold = 8 ∧
    DefaultSearchConfig.initialChunkLimit = 50 ∧
    DefaultSearchConfig.maxFilesLimit = 15 ∧
    DefaultSearchConfig.semanticWeight = 70/100 ∧
    DefaultSearchConfig.keywordWeight = 15/100 ∧
    DefaultSearchConfig.pathWeight = 5/100 ∧
    DefaultSearchConfig.aggregateWeight = 10/100 :=
  ⟨rfl, rfl, rfl, rfl, rfl, rfl, rfl, rfl, rfl, rfl, rfl, rfl⟩

/-- C4 (counterexample).  On the 12 best-file scores 0.05..0.16 with
percentile 0.75, the percentile index is 9 but the sorted score there is
0.14, not the 0.13 the claim states. -/
theorem c4_threshold_counterexample :
    percentileIdxOf c4Candidates c4Config = 9 ∧
    distributionThresholdOf c4Candidates c4Config = 14/100 ∧
    ¬ distributionThresholdOf c4Candidates c4Config = 13/100 := by
  refine ⟨?_, ?_, ?_⟩ <;>
    norm_num [percentileIdxOf, distributionThresholdOf, sortedBestScores,
      c4Candidates, c4Config, DefaultSearchConfig, mkScoreCandidate,
      List.insertionSort, List.orderedInsert, Int.toNat]

/-- C4 (amended).  On the 12 best-file scores 0.05..0.16 with percentile
0.75, floor 0.15 and min survivors 6: the percentile index is 9, T_dist is
0.14, the initial threshold max(0.14, 0.15) = 0.15 leaves 2 survivors, so
the threshold relaxes to the 6th-highest score 0.11 and exactly 6
candidates survive. -/
theorem c4_threshold_relaxation :
    percentileIdxOf c4Candidates c4Config = 9 ∧
    distributionThresholdOf c4Candidates c4Config = 14/100 ∧
    max (distributionThresholdOf c4Candidates c4Config) c4Config.minAbsoluteScore = 15/100 ∧
    (sortedBestScores c4Candidates).countP (fun s => (15 : ℚ)/100 ≤ s) = 2 ∧
    calculateAdaptiveThreshold c4Candidates c4Config = 11/100 ∧
    (c4Candidates.filter
      (fun c => calculateAdaptiveThreshold c4Candidates c4Config ≤ c.bestChunkScore)).length = 6 := by
  refine ⟨?_, ?_, ?_, ?_, ?_, ?_⟩ <;>
    norm_num [calculateAdaptiveThreshold, percentileIdxOf, distributionThresholdOf,
      sortedBestScores, c4Candidates, c4Config, DefaultSearchConfig, mkScoreCandidate,
      List.insertionSort, List.orderedInsert, List.countP, List.countP.go, Int.toNat]

/-- C7 (counterexample).  A configuration whose (non-negative) weights sum
to 1.01 — inside the validated 1 ± 0.01 tolerance — and a candidate all of
whose components equal 1 produce a pre-penalty hybrid score of 1.01 > 1,
refuting the claimed bound hybrid ∈ [0, 1]; the dynamic re-weighting keeps
the original weights here (keywords present, average keyword score 1). -/
theorem c7_hybrid_counterexample :
    (0 ≤ c7Config.semanticWeight ∧ 0 ≤ c7Config.keywordWeight ∧
     0 ≤ c7Config.pathWeight ∧ 0 ≤ c7Config.aggregateWeight) ∧
    (1 - 1/100 ≤ c7Config.semanticWeight + c7Config.keywordWeight +
        c7Config.pathWeight + c7Config.aggregateWeight ∧
     c7Config.semanticWeight + c7Config.keywordWeight +
        c7Config.pathWeight + c7Config.aggregateWeight ≤ 1 + 1/100) ∧
    (0 ≤ c7Candidate.bestChunkScore ∧ c7Candidate.bestChunkScore ≤ 1) ∧
    (0 ≤ c7Candidate.keywordScore ∧ c7Candidate.keywordScore ≤ 1) ∧
    (0 ≤ c7Candidate.pathScore ∧ c7Candidate.pathScore ≤ 1) ∧
    (0 ≤ calculateAggregateScore c7Candidate.topKChunkScores ∧
     calculateAggregateScore c7Candidate.topKChunkScores ≤ 1) ∧
    effectiveWeights [c7Candidate] ["alpha".data] c7Config =
      (c7Config.semanticWeight, c7Config.keywordWeight) ∧
    hybridBase c7Candidate c7Config.semanticWeight c7Config.keywordWeight
      c7Config.pathWeight c7Config.aggregateWeight = 101/100 ∧
    ¬ hybridBase c7Candidate c7Config.semanticWeight c7Config.keywordWeight
      c7Config.pathWeight c7Config.aggregateWeight ≤ 1 := by
  refine ⟨⟨?_, ?_, ?_, ?_⟩, ⟨?_, ?_⟩, ⟨?_, ?_⟩, ⟨?_, ?_⟩, ⟨?_, ?_⟩, ⟨?_, ?_⟩, ?_, ?_, ?_⟩ <;>
    norm_num [c7Config, c7Candidate, DefaultSearchConfig, effectiveWeights,
      avgKeywordScoreOf, hybridBase, calculateAggregateScore]

/-- C7 (amended).  For every configuration whose four weights are
non-negative and sum to at most 1.01 (in particular any configuration the
validator accepts with non-negative weights), and every candidate whose
best chunk score, keyword score, path score and aggregate score all lie in
[0, 1], the pre-penalty hybrid score — computed with the dynamically
re-weighted semantic/keyword weights exactly as applyHybridScoring does —
lies in [0, 1.01] (and hence not in [0, 1] in general, the sum bound being
attainable). -/
theorem c7_hybrid_bounded (config : SearchConfig) (candidates : List FileCandidate)
    (keywords : List Str) (c : FileCandidate)
    (hsw : 0 ≤ config.semanticWeight) (hkw : 0 ≤ config.keywordWeight)
    (hpw : 0 ≤ config.pathWeight) (haw : 0 ≤ config.aggregateWeight)
    (hsum : config.semanticWeight + config.keywordWeight +
      config.pathWeight + config.aggregateWeight ≤ 101/100)
    (hb0 : 0 ≤ c.bestChunkScore) (hb1 : c.bestChunkScore ≤ 1)
    (hk0 : 0 ≤ c.keywordScore) (hk1 : c.keywordScore ≤ 1)
    (hp0 : 0 ≤ c.pathScore) (hp1 : c.pathScore ≤ 1)
    (ha0 : 0 ≤ calculateAggregateScore c.topKChunkScores)
    (ha1 : calculateAggregateScore c.topKChunkScores ≤ 1) :
    0 ≤ hybridBase c (effectiveWeights candidates keywords config).1
        (effectiveWeights candidates keywords config).2
        config.pathWeight config.aggregateWeight ∧
    hybridBase c (effectiveWeights candidates keywords config).1
        (effectiveWeights candidates keywords config).2
        config.pathWeight config.aggregateWeight ≤ 101/100 := by
  have key : ∀ sw kw : ℚ, 0 ≤ sw → 0 ≤ kw →
      sw + kw + config.pathWeight + config.aggregateWeight ≤ 101/100 →
      0 ≤ hybridBase c sw kw config.pathWeight config.aggregateWeight ∧
      hybridBase c sw kw config.pathWeight config.aggregateWeight ≤ 101/100 := by
    intro sw kw hsw' hkw' hsum'
    unfold hybridBase
    constructor
    · have t1 := mul_nonneg hb0 hsw'
      have t2 := mul_nonneg hk0 hkw'
      have t3 := mul_nonneg hp0 hpw
      have t4 := mul_nonneg ha0 haw
      linarith
    · have t1 : c.bestChunkScore * sw ≤ sw := mul_le_of_le_one_left hsw' hb1
      have t2 : c.keywordScore * kw ≤ kw := mul_le_of_le_one_left hkw' hk1
      have t3 : c.pathScore * config.pathWeight ≤ config.pathWeight :=
        mul_le_of_le_one_left hpw hp1
      have t4 : calculateAggregateScore c.topKChunkScores * config.aggregateWeight ≤
          config.aggregateWeight := mul_le_of_le_one_left haw ha1
      linarith
  rcases hw : effectiveWeights candidates keywords config with ⟨sw, kw⟩
  have hcases : (sw = config.semanticWeight + config.keywordWeight ∧ kw = 0) ∨
      (sw = config.semanticWeight ∧ kw = config.keywordWeight) := by
    unfold effectiveWeights at hw
    split at hw <;> rw [Prod.mk.injEq] at hw
    · exact Or.inl ⟨hw.1.symm, hw.2.symm⟩
    · exact Or.inr ⟨hw.1.symm, hw.2.symm⟩
  rcases hcases with ⟨h1, h2⟩ | ⟨h1, h2⟩ <;> subst h1 <;> subst h2
  · exact key (config.semanticWeight + config.keywordWeight) 0 (by linarith) le_rfl (by linarith)
  · exact key config.semanticWeight config.keywordWeight hsw hkw hsum

/-- C7 (witness). -/
theorem c7_hybrid_bounded_witness :
    0 ≤ hybridBase c7Candidate (effectiveWeights [] [] DefaultSearchConfig).1
        (effectiveWeights [] [] DefaultSearchConfig).2
        DefaultSearchConfig.pathWeight DefaultSearchConfig.aggregateWeight ∧
    hybridBase c7Candidate (effectiveWeights [] [] DefaultSearchConfig).1
        (effectiveWeights [] [] DefaultSearchConfig).2
        DefaultSearchConfig.pathWeight DefaultSearchConfig.aggregateWeight ≤ 101/100 :=
  c7_hybrid_bounded DefaultSearchConfig [] [] c7Candidate
    (by norm_num [DefaultSearchConfig]) (by norm_num [DefaultSearchConfig])
    (by norm_num [DefaultSearchConfig]) (by norm_num [DefaultSearchConfig])
    (by norm_num [DefaultSearchConfig])
    (by norm_num [c7Candidate]) (by norm_num [c7Candidate])
    (by norm_num [c7Candidate]) (by norm_num [c7Candidate])
    (by norm_num [c7Candidate]) (by norm_num [c7Candidate])
    (by norm_num [c7Candidate, calculateAggregateScore])
    (by norm_num [c7Candidate, calculateAggregateScore])

/-! ## Incremental-run lemmas (claims C5 and C10) -/

/-- A successful run requires non-empty names and a resolvable branch head. -/
theorem indexIncremental_ok_inputs (repoName branch : Str) (env : GitEnv)
    (meta0 : Option BranchMetadata)
    (hok : (IndexIncremental repoName branch env meta0).result = .ok) :
    ¬ (repoName = [] ∨ branch = []) ∧ ∃ c, env.branchCommit = .ok c := by
  by_cases hn : repoName = [] ∨ branch = []
  · rw [IndexIncremental, if_pos hn] at hok
    simp at hok
  · refine ⟨hn, ?_⟩
    cases hc : env.branchCommit with
    | error e =>
      rw [IndexIncremental, if_neg hn, NeedsReindexing, hc] at hok
      simp at hok
    | ok c => exact ⟨c, rfl⟩

/-- A run on metadata already at the current branch commit is a no-op. -/
theorem indexIncremental_noop (repoName branch : Str) (env : GitEnv) (m : BranchMetadata)
    (c : Str) (hn : ¬ (repoName = [] ∨ branch = [])) (hc : env.branchCommit = .ok c)
    (hm : m.commitSHA = c) :
    IndexIncremental repoName branch env (some m) =
      { meta := some m, actions := [], result := .ok } := by
  rw [IndexIncremental, if_neg hn, NeedsReindexing, hc]
  simp [hm]

/-- Shape of a first-time run (no stored metadata). -/
theorem indexIncremental_none (repoName branch : Str) (env : GitEnv) (c : Str)
    (hn : ¬ (repoName = [] ∨ branch = [])) (hc : env.branchCommit = .ok c) :
    IndexIncremental repoName branch env none = indexAllFiles repoName branch env c := by
  rw [IndexIncremental, if_neg hn, NeedsReindexing, hc]
  rfl

/-- Shape of a run whose stored commit differs from the branch head. -/
theorem indexIncremental_some_ne (repoName branch : Str) (env : GitEnv)
    (m : BranchMetadata) (c : Str) (hn : ¬ (repoName = [] ∨ branch = []))
    (hc : env.branchCommit = .ok c) (he : m.commitSHA ≠ c) :
    IndexIncremental repoName branch env (some m) =
      (match env.changedFilesSince m.commitSHA with
      | .error e => { meta := some m, actions := [], result := .error e }
      | .ok changedFiles =>
        match goSlicePrefix m.commitSHA 8 with
        | none => { meta := some m, actions := [],
                    result := .panicked "slice bounds out of range".data }
        | some _ =>
          match goSlicePrefix c 8 with
          | none => { meta := some m, actions := [],
                      result := .panicked "slice bounds out of range".data }
          | some _ =>
            { meta := some { repoName := repoName, branch := branch, commitSHA := c,
                             indexedAt := env.now,
                             fileCount := countIndexedJobs env changedFiles },
              actions := changedFiles.flatMap (processChangedFile env),
              result := .ok } : RunOutcome) := by
  rw [IndexIncremental, if_neg hn, NeedsReindexing, hc]
  simp [he]

/-- A successful run leaves metadata stamped with the current branch commit. -/
theorem indexIncremental_ok_commit (repoName branch : Str) (env : GitEnv)
    (meta0 : Option BranchMetadata) (c : Str) (hc : env.branchCommit = .ok c)
    (hok : (IndexIncremental repoName branch env meta0).result = .ok) :
    ∃ m, (IndexIncremental repoName branch env meta0).meta = some m ∧ m.commitSHA = c := by
  by_cases hn : repoName = [] ∨ branch = []
  · rw [IndexIncremental, if_pos hn] at hok
    simp at hok
  · cases meta0 with
    | none =>
      rw [indexIncremental_none repoName branch env c hn hc]
      exact ⟨_, rfl, rfl⟩
    | some m =>
      by_cases he : m.commitSHA = c
      · rw [indexIncremental_noop repoName branch env m c hn hc he]
        exact ⟨m, rfl, he⟩
      · rw [indexIncremental_some_ne repoName branch env m c hn hc he] at hok ⊢
        cases hcf : env.changedFilesSince m.commitSHA with
        | error e => rw [hcf] at hok; simp at hok
        | ok changedFiles =>
          rw [hcf] at hok
          cases hs1 : goSlicePrefix m.commitSHA 8 with
          | none => rw [hs1] at hok; simp at hok
          | some p1 =>
            rw [hs1] at hok
            cases hs2 : goSlicePrefix c 8 with
            | none => rw [hs2] at hok; simp at hok
            | some p2 => exact ⟨_, rfl, rfl⟩

/-- C5.  For every sequence of IndexIncremental runs over a fixed
environment (same repo, branch and branch head commit), if the first run
succeeds then the second and every later run performs no embedding, upsert
or delete call and returns success (NeedsReindexing reports false because
the stored metadata commit equals the branch commit). -/
theorem c5_incremental_idempotent (repoName branch : Str) (env : GitEnv)
    (meta0 : Option BranchMetadata)
    (hok : (runSequence repoName branch env meta0 0).result = .ok) :
    ∀ n, 1 ≤ n →
      (runSequence repoName branch env meta0 n).actions = [] ∧
      (runSequence repoName branch env meta0 n).result = .ok := by
  obtain ⟨hn, c, hc⟩ := indexIncremental_ok_inputs repoName branch env meta0 hok
  have inv : ∀ k, ∃ m, (runSequence repoName branch env meta0 k).meta = some m ∧
      m.commitSHA = c := by
    intro k
    induction k with
    | zero => exact indexIncremental_ok_commit repoName branch env meta0 c hc hok
    | succ k ih =>
      obtain ⟨m, hm, hsha⟩ := ih
      show ∃ m', (IndexIncremental repoName branch env
        (runSequence repoName branch env meta0 k).meta).meta = some m' ∧ m'.commitSHA = c
      rw [hm, indexIncremental_noop repoName branch env m c hn hc hsha]
      exact ⟨m, rfl, hsha⟩
  intro n hn1
  obtain ⟨k, rfl⟩ : ∃ k, n = k + 1 := ⟨n - 1, by omega⟩
  obtain ⟨m, hm, hsha⟩ := inv k
  show (IndexIncremental repoName branch env
      (runSequence repoName branch env meta0 k).meta).actions = [] ∧
    (IndexIncremental repoName branch env
      (runSequence repoName branch env meta0 k).meta).result = .ok
  rw [hm, indexIncremental_noop repoName branch env m c hn hc hsha]
  exact ⟨rfl, rfl⟩

/-- C5 (witness). -/
theorem c5_incremental_idempotent_witness :
    (runSequence "r".data "main".data envA (some metaA) 1).actions = [] ∧
    (runSequence "r".data "main".data envA (some metaA) 1).result = .ok :=
  c5_incremental_idempotent "r".data "main".data envA (some metaA)
    (by rw [runSequence, indexIncremental_noop "r".data "main".data envA metaA shaA
      (by simp) rfl rfl]) 1 le_rfl

/-- C10.  The unguarded commit-SHA slices meta.CommitSHA[:8] and
currentCommit[:8] of IndexIncremental and of the scanner's
checkBranchForChanges are panic-free exactly under the precondition that
every stored and returned commit SHA has length at least 8; a syntactically
valid metadata record whose commit_sha is the 4-character string "HEAD"
(which git resolves, so the changed-files query succeeds) makes the
incremental run and the scanner check fail with an out-of-range panic. -/
theorem c10_commit_slice_panics :
    (∀ (repoName branch : Str) (env : GitEnv) (meta0 : Option BranchMetadata),
      (∀ m ∈ meta0, 8 ≤ m.commitSHA.length) →
      (∀ c, env.branchCommit = .ok c → 8 ≤ c.length) →
      (IndexIncremental repoName branch env meta0).result.isPanic = false ∧
      (checkBranchForChanges env meta0).isPanic = false) ∧
    (IndexIncremental "r".data "main".data envA (some metaShort)).result =
      .panicked "slice bounds out of range".data ∧
    checkBranchForChanges envA (some metaShort) =
      .panicked "slice bounds out of range".data := by
  refine ⟨?_, ?_, ?_⟩
  · intro repoName branch env meta0 hmeta hcommit
    constructor
    · by_cases hn : repoName = [] ∨ branch = []
      · rw [IndexIncremental, if_pos hn]; rfl
      · cases hc : env.branchCommit with
        | error e => rw [IndexIncremental, if_neg hn, NeedsReindexing, hc]; rfl
        | ok c =>
          have hcl : 8 ≤ c.length := hcommit c hc
          cases meta0 with
          | none =>
            rw [indexIncremental_none repoName branch env c hn hc]
            rfl
          | some m =>
            have hml : 8 ≤ m.commitSHA.length := hmeta m rfl
            by_cases he : m.commitSHA = c
            · rw [indexIncremental_noop repoName branch env m c hn hc he]; rfl
            · rw [indexIncremental_some_ne repoName branch env m c hn hc he]
              cases hcf : env.changedFilesSince m.commitSHA with
              | error e => rfl
              | ok changedFiles =>
                rw [show goSlicePrefix m.commitSHA 8 = some (m.commitSHA.take 8) from
                  if_pos hml]
                rw [show goSlicePrefix c 8 = some (c.take 8) from if_pos hcl]
                rfl
    · rw [checkBranchForChanges, NeedsReindexing]
      cases hc : env.branchCommit with
      | error e => rfl
      | ok c =>
        have hcl : 8 ≤ c.length := hcommit c hc
        cases meta0 with
        | none =>
          simp [ScanResult.isPanic,
            show goSlicePrefix c 8 = some (c.take 8) from if_pos hcl]
        | some m =>
          have hml : 8 ≤ m.commitSHA.length := hmeta m rfl
          by_cases he : m.commitSHA = c
          · simp [he, ScanResult.isPanic]
          · simp [he, ScanResult.isPanic,
              show goSlicePrefix m.commitSHA 8 = some (m.commitSHA.take 8) from if_pos hml,
              show goSlicePrefix c 8 = some (c.take 8) from if_pos hcl]
  · rfl
  · rfl

/-! ## Candidate-building lemmas (claim C8) -/

/-- The raw-result grouping step preserves the basePath of every stored
candidate and appends a fresh key at the end on first appearance. -/
theorem insertRawResult_map_basePath (acc : List FileCandidate) (r : SearchResult) :
    (insertRawResult acc r).map (fun c => c.basePath) =
      (if extractBasePath r.filePath ∈ acc.map (fun c => c.basePath)
       then acc.map (fun c => c.basePath)
       else acc.map (fun c => c.basePath) ++ [extractBasePath r.filePath]) := by
  unfold insertRawResult
  by_cases h : ∃ c ∈ acc, c.basePath = extractBasePath r.filePath
  · have hany : acc.any (fun c => c.basePath = extractBasePath r.filePath) = true := by
      simpa [List.any_eq_true] using h
    have hmem : extractBasePath r.filePath ∈ acc.map (fun c => c.basePath) := by
      obtain ⟨c, hc, hbp⟩ := h
      exact hbp ▸ List.mem_map_of_mem _ hc
    rw [if_pos hmem]
    simp only [hany, if_true, List.map_map]
    refine List.map_congr_left (fun c _ => ?_)
    by_cases hc : c.basePath = extractBasePath r.filePath <;> simp [hc]
  · have hany : acc.any (fun c => c.basePath = extractBasePath r.filePath) = false := by
      simp only [List.any_eq_false]
      intro c hc
      simp only [decide_eq_true_eq]
      exact fun hbp => h ⟨c, hc, hbp⟩
    have hmem : extractBasePath r.filePath ∉ acc.map (fun c => c.basePath) := by
      intro hmem
      obtain ⟨c, hc, hbp⟩ := List.mem_map.mp hmem
      exact h ⟨c, hc, hbp⟩
    rw [if_neg hmem]
    simp [hany]

/-- The key list of the grouping map is the first-appearance base paths. -/
theorem groupCandidates_map_basePath (rawResults : List SearchResult) :
    (groupCandidates rawResults).map (fun c => c.basePath) = uniqueBasePaths rawResults := by
  suffices h : ∀ acc : List FileCandidate,
      (rawResults.foldl insertRawResult acc).map (fun c => c.basePath) =
        rawResults.foldl (fun a r =>
          let basePath := extractBasePath r.filePath
          if basePath ∈ a then a else a ++ [basePath]) (acc.map (fun c => c.basePath)) by
    exact h []
  induction rawResults with
  | nil => intro acc; rfl
  | cons r rest ih =>
    intro acc
    simp only [List.foldl_cons, ih (insertRawResult acc r), insertRawResult_map_basePath]

/-- C8.  Within one retrieval: a failure of the initial vector search is
propagated verbatim to the caller of SearchWithAggregation, while a failure
of a single scroll_by_base_path (FetchAllChunks) during candidate building
drops exactly that candidate and the query continues: the surviving
candidates are precisely the grouped base paths whose fetch succeeds, in
order. -/
theorem c8_error_containment :
    (∀ (config : SearchConfig) (mathLog : ℚ → ℚ)
       (fetch : Str → Option (List SearchResult)) (e : Str) (query : Str),
      searchWithAggregation config mathLog fetch (.error e) query = .error e) ∧
    (∀ (mathLog : ℚ → ℚ) (fetch : Str → Option (List SearchResult))
       (rawResults : List SearchResult) (keywords : List Str),
      (buildFileCandidates mathLog fetch rawResults keywords).map (fun c => c.basePath) =
        (uniqueBasePaths rawResults).filter (fun b => (fetch b).isSome)) := by
  constructor
  · intro config mathLog fetch e query
    rfl
  · intro mathLog fetch rawResults keywords
    rw [buildFileCandidates, ← groupCandidates_map_basePath rawResults]
    induction groupCandidates rawResults with
    | nil => rfl
    | cons c t ih =>
      cases hf : fetch c.basePath with
      | none => simp [List.filterMap_cons, hf, ih]
      | some chunks => simp [List.filterMap_cons, hf, ih]

/-- C10 (witness). -/
theorem c10_commit_slice_panics_witness :
    (IndexIncremental "r".data "main".data envA (some metaA)).result.isPanic = false ∧
    (checkBranchForChanges envA (some metaA)).isPanic = false :=
  c10_commit_slice_panics.1 "r".data "main".data envA (some metaA)
    (by intro m hm; cases hm; simp [metaA, shaA])
    (by intro c hcm; cases hcm; simp [shaA])

/-! ## String lemmas for the chunker proofs -/

theorem splitLines_no_nl {l : Str} (h : ∀ c ∈ l, c ≠ '\n') : splitLines l = [l] := by
  induction l with
  | nil => rfl
  | cons c rest ih =>
    have hc : c ≠ '\n' := h c (List.mem_cons_self c rest)
    have hrest := ih (fun x hx => h x (List.mem_cons_of_mem c hx))
    rw [splitLines, if_neg hc, hrest]

theorem splitLines_append {l1 : Str} (l2 : Str) (h : ∀ c ∈ l1, c ≠ '\n') :
    splitLines (l1 ++ '\n' :: l2) = l1 :: splitLines l2 := by
  induction l1 with
  | nil => simp [splitLines]
  | cons c rest ih =>
    have hc : c ≠ '\n' := h c (List.mem_cons_self c rest)
    have hrest := ih (fun x hx => h x (List.mem_cons_of_mem c hx))
    rw [List.cons_append, splitLines, if_neg hc, hrest]

theorem splitLines_ne_nil (l : Str) : splitLines l ≠ [] := by
  cases l with
  | nil => simp [splitLines]
  | cons c rest =>
    rw [splitLines]
    split
    · simp
    · split
      · simp
      · simp

theorem sumLen1_splitLines (l : Str) : sumLen1 (splitLines l) = l.length + 1 := by
  induction l with
  | nil => rfl
  | cons c rest ih =>
    by_cases hc : c = '\n'
    · rw [splitLines, if_pos hc, sumLen1, List.foldr_cons]
      show 0 + 1 + sumLen1 (splitLines rest) = (c :: rest).length + 1
      rw [ih]
      simp only [List.length_cons]
      omega
    · rw [splitLines, if_neg hc]
      rcases hsp : splitLines rest with _ | ⟨h1, t1⟩
      · exact absurd hsp (splitLines_ne_nil rest)
      · rw [hsp] at ih
        rw [sumLen1, List.foldr_cons] at ih ⊢
        simp only [List.length_cons] at ih ⊢
        omega

theorem dropWhile_no_space {l : Str} (h : ∀ c ∈ l, isSpaceChar c = false) :
    l.dropWhile isSpaceChar = l := by
  cases l with
  | nil => rfl
  | cons c rest =>
    rw [List.dropWhile_cons, if_neg]
    simp [h c (List.mem_cons_self c rest)]

theorem trimSpace_no_space {l : Str} (h : ∀ c ∈ l, isSpaceChar c = false) :
    trimSpace l = l := by
  rw [trimSpace, dropWhile_no_space h, dropWhile_no_space, List.reverse_reverse]
  intro c hc
  exact h c (List.mem_reverse.mp hc)

theorem cons_isPrefixOf_ne {c x : Char} {p l : Str} (hx : x ≠ c) :
    (c :: p).isPrefixOf (x :: l) = false := by
  simp [List.isPrefixOf_cons₂, Ne.symm hx]

theorem goIsTopLevel_a {n : Nat} : goIsTopLevel (List.replicate (n + 1) 'a') = false := by
  rw [List.replicate_succ, goIsTopLevel]
  rw [show "func ".data = 'f' :: "unc ".data from rfl,
    show "type ".data = 't' :: "ype ".data from rfl,
    show "const ".data = 'c' :: "onst ".data from rfl,
    show "var ".data = 'v' :: "ar ".data from rfl,
    show "package ".data = 'p' :: "ackage ".data from rfl,
    show "import ".data = 'i' :: "mport ".data from rfl]
  rw [cons_isPrefixOf_ne (by decide), cons_isPrefixOf_ne (by decide),
    cons_isPrefixOf_ne (by decide), cons_isPrefixOf_ne (by decide),
    cons_isPrefixOf_ne (by decide), cons_isPrefixOf_ne (by decide)]
  rfl

theorem replicate_a_no_space {n : Nat} : ∀ c ∈ List.replicate n 'a', isSpaceChar c = false := by
  intro c hc
  rw [List.eq_of_mem_replicate hc]
  rfl

/-- chunkBoundaryAware on a single line that never splits: one chunk,
the whole line plus its trailing newline. -/
theorem chunkBoundaryAware_single (fp langTag content : Str) (isTop : Str → Bool)
    (maxSize overlap : Nat) (hnl : ∀ c ∈ content, c ≠ '\n')
    (htop : isTop (trimSpace content) = false) (hms : 0 < maxSize) :
    chunkBoundaryAware fp langTag isTop content maxSize overlap =
      [{ content := content ++ ['\n'], chunkIndex := 0, startLine := 1, endLine := 1,
         header := buildHeader fp langTag (extractSymbol (content ++ ['\n'])),
         chunkID := [] }] := by
  rw [chunkBoundaryAware, splitLines_no_nl hnl]
  rw [show boundaryLoop fp langTag isTop maxSize overlap [content] [content] 0
        { chunks := [], cur := [], currentLine := 1, chunkStart := 1, chunkIdx := 0 } =
      boundaryStep fp langTag isTop maxSize overlap [content] 0 content
        { chunks := [], cur := [], currentLine := 1, chunkStart := 1, chunkIdx := 0 } from rfl]
  rw [boundaryStep]
  simp only [htop, Bool.and_false, Bool.false_or, Bool.false_and]
  rw [show decide (maxSize ≤ List.length ([] : Str)) = false by
    simp only [List.length_nil, decide_eq_false_iff_not, Nat.not_le]
    exact hms]
  simp

/-- C2.  Evaluating the chunker at the failing input: a "go" file that is
one 14200-character line.  The boundary-aware chunker's split check runs
before a line is appended, so the whole line lands in a single chunk of
14201 characters ≈ 3551 estimated tokens, exceeding the documented bound
MAX_TOKENS_PER_CHUNK × 1.01 = 3535 that the chunker's own doc comment,
tests and the spec all state. -/
theorem c2_chunk_token_overflow :
    (ChunkFile "a.go".data c2Content "go".data).map (fun c => estimateTokens c.content) =
      [3551] ∧
    MaxTokensPerChunk * 101 / 100 = 3535 ∧
    ¬ (3551 : Nat) ≤ 3535 := by
  refine ⟨?_, by norm_num [MaxTokensPerChunk], by norm_num⟩
  have hnl : ∀ c ∈ c2Content, c ≠ '\n' := by
    intro c hc
    rw [c2Content] at hc
    rw [List.eq_of_mem_replicate hc]
    decide
  have hlen : c2Content.length = 14200 := by
    rw [c2Content, List.length_replicate]
  have htrim : trimSpace c2Content = c2Content := by
    apply trimSpace_no_space
    intro c hc
    rw [c2Content] at hc
    rw [List.eq_of_mem_replicate hc]
    rfl
  have htop : goIsTopLevel (trimSpace c2Content) = false := by
    rw [htrim, c2Content, show (14200 : Nat) = 14199 + 1 from rfl]
    exact goIsTopLevel_a
  have hest : estimateTokens c2Content = 3550 := by
    rw [estimateTokens, hlen]
  rw [ChunkFile]
  simp only [hest, charsForTokens, MaxTokensPerChunk, OverlapTokens, MaxTokensWholeFile]
  rw [if_neg (by norm_num)]
  simp only [if_true, show (3500 * 4 : Nat) = 14000 from rfl, show (250 * 4 : Nat) = 1000 from rfl]
  rw [chunkGoCode]
  rw [chunkBoundaryAware_single "a.go".data "go".data c2Content goIsTopLevel 14000 1000 hnl htop
    (by norm_num)]
  have hclen : (c2Content ++ ['\n']).length = 14201 := by
    rw [List.length_append, hlen]
    rfl
  rw [List.filter_cons]
  simp only [hclen]
  rw [if_pos (by norm_num)]
  simp only [List.filter_nil, List.map_cons, List.map_nil, estimateTokens, hclen]

/-! ## Chunk-index lemmas (claim C6) -/


theorem trimSpace_head_last {l : Str} (h1 : ∀ c, l.head? = some c → isSpaceChar c = false)
    (h2 : ∀ c, l.getLast? = some c → isSpaceChar c = false) : trimSpace l = l := by
  have hdrop : ∀ (m : Str), (∀ c, m.head? = some c → isSpaceChar c = false) →
      m.dropWhile isSpaceChar = m := by
    intro m hm
    cases m with
    | nil => rfl
    | cons c rest => rw [List.dropWhile_cons, if_neg]; simp [hm c rfl]
  rw [trimSpace, hdrop l h1, hdrop l.reverse, List.reverse_reverse]
  intro c hc
  rw [List.head?_reverse] at hc
  exact h2 c hc

theorem getLast?_append_replicate {xs : Str} {c : Char} {n : Nat} (hn : 0 < n) :
    (xs ++ List.replicate n c).getLast? = some c := by
  obtain ⟨m, rfl⟩ : ∃ m, n = m + 1 := ⟨n - 1, by omega⟩
  rw [← List.head?_reverse, List.reverse_append, List.reverse_replicate, List.replicate_succ]
  rfl

theorem c6_main :
    (ChunkFile "a.go".data c6Content "go".data).map (fun c => c.chunkIndex) = [1] := by
  have hstep0 :
      boundaryStep "a.go".data "go".data goIsTopLevel 14000 1000
        ["package a".data, "func ".data ++ List.replicate 13990 'b'] 0 "package a".data
        { chunks := [], cur := [], currentLine := 1, chunkStart := 1, chunkIdx := 0 } =
        { chunks := [], cur := "package a\n".data, currentLine := 2, chunkStart := 1,
          chunkIdx := 0 } := by
    rw [boundaryStep]
    norm_num
  have hlen1 : ("func ".data ++ List.replicate 13990 'b').length = 13995 := by
    rw [List.length_append, List.length_replicate]
    rfl
  have htrim1 : trimSpace ("func ".data ++ List.replicate 13990 'b') =
      "func ".data ++ List.replicate 13990 'b' := by
    apply trimSpace_head_last
    · intro c hc
      rw [show ("func ".data ++ List.replicate 13990 'b') =
        'f' :: ("unc ".data ++ List.replicate 13990 'b') from rfl] at hc
      simp only [List.head?_cons, Option.some.injEq] at hc
      rw [← hc]
      rfl
    · intro c hc
      rw [getLast?_append_replicate (by norm_num)] at hc
      simp only [Option.some.injEq] at hc
      rw [← hc]
      rfl
  have htop1 : goIsTopLevel (trimSpace ("func ".data ++ List.replicate 13990 'b')) = true := by
    rw [htrim1, goIsTopLevel]
    rw [show "func ".data.isPrefixOf ("func ".data ++ List.replicate 13990 'b') = true by
      rw [List.isPrefixOf_iff_prefix]; exact List.prefix_append _ _]
    rfl
  have hov : getOverlapLines ["package a".data, "func ".data ++ List.replicate 13990 'b'] 1 1000 =
      "package a\n".data := by
    rw [getOverlapLines, if_neg (by norm_num)]
    rfl
  have hstep1 :
      boundaryStep "a.go".data "go".data goIsTopLevel 14000 1000
        ["package a".data, "func ".data ++ List.replicate 13990 'b'] 1
        ("func ".data ++ List.replicate 13990 'b')
        { chunks := [], cur := "package a\n".data, currentLine := 2, chunkStart := 1,
          chunkIdx := 0 } =
        { chunks := [{ content := "package a\n".data, chunkIndex := 0, startLine := 1, endLine := 1,
                       header := buildHeader "a.go".data "go".data
                         (extractSymbol "package a\n".data),
                       chunkID := [] }],
          cur := "package a\n".data ++ ("func ".data ++ List.replicate 13990 'b') ++ ['\n'],
          currentLine := 3, chunkStart := 1, chunkIdx := 1 } := by
    rw [boundaryStep, htop1]
    simp only [hov, hlen1]
    norm_num
  have hsplit : splitLines c6Content =
      ["package a".data, "func ".data ++ List.replicate 13990 'b'] := by
    rw [show c6Content = "package a".data ++ '\n' :: ("func ".data ++ List.replicate 13990 'b')
      from rfl]
    rw [splitLines_append _ (by decide)]
    rw [splitLines_no_nl]
    have hf : ∀ c ∈ "func ".data, c ≠ '\n' := by decide
    intro c hc
    rcases List.mem_append.mp hc with h | h
    · exact hf c h
    · rw [List.eq_of_mem_replicate h]; decide
  have hclen : c6Content.length = 14005 := by
    rw [c6Content, List.length_append, List.length_append, List.length_replicate]
    rfl
  have hest : estimateTokens c6Content = 3502 := by
    rw [estimateTokens, hclen]
  rw [ChunkFile]
  simp only [hest, charsForTokens, MaxTokensPerChunk, OverlapTokens, MaxTokensWholeFile]
  rw [if_neg (by norm_num)]
  simp only [if_true, show (3500 * 4 : Nat) = 14000 from rfl, show (250 * 4 : Nat) = 1000 from rfl]
  rw [chunkGoCode, chunkBoundaryAware, hsplit]
  simp only [boundaryLoop, hstep0, hstep1]
  have hcur2 : ("package a\n".data ++ ("func ".data ++ List.replicate 13990 'b') ++ ['\n']).length
      = 14006 := by
    rw [List.length_append, List.length_append, hlen1]
    rfl
  rw [if_pos (by rw [hcur2]; norm_num)]
  simp only [List.singleton_append]
  rw [List.filter_cons, List.filter_cons]
  simp only [List.length_cons, hcur2]
  rw [if_neg (by norm_num), if_pos (by norm_num)]
  simp only [List.filter_nil, List.map_cons, List.map_nil]

/-- C6 (counterexample).  On a "go" file whose first produced chunk (10
characters) is dropped by the MIN_CHUNK_CHARS filter after index
assignment, ChunkFile returns exactly one chunk whose chunk_index is 1, so
the returned indices are not the dense sequence 0..K-1. -/
theorem c6_chunk_index_gap :
    (ChunkFile "a.go".data c6Content "go".data).map (fun c => c.chunkIndex) = [1] ∧
    (ChunkFile "a.go".data c6Content "go".data).map (fun c => c.chunkIndex) ≠
      List.range (ChunkFile "a.go".data c6Content "go".data).length := by
  refine ⟨c6_main, ?_⟩
  have hlen : (ChunkFile "a.go".data c6Content "go".data).length = 1 := by
    have h := congrArg List.length c6_main
    rwa [List.length_map] at h
  rw [c6_main, hlen]
  decide

/-- Index discipline of the oversized-line splitter: indices start at the
given counter, stay below the returned counter, and strictly increase. -/
theorem oversizePieces_idx (fp lang : Str) (maxSize : Nat) (sl : Int) :
    ∀ (n : Nat) (l : Str), l.length ≤ n → ∀ k : Nat,
      k ≤ (oversizePieces fp lang maxSize sl l k).2 ∧
      (∀ c ∈ (oversizePieces fp lang maxSize sl l k).1,
        k ≤ c.chunkIndex ∧ c.chunkIndex < (oversizePieces fp lang maxSize sl l k).2) ∧
      List.Pairwise (fun a b => a.chunkIndex < b.chunkIndex)
        (oversizePieces fp lang maxSize sl l k).1 := by
  intro n
  induction n with
  | zero =>
    intro l hl k
    have : l = [] := List.length_eq_zero.mp (Nat.le_zero.mp hl)
    subst this
    rw [oversizePieces, dif_pos (Or.inl rfl)]
    simp
  | succ n ih =>
    intro l hl k
    rw [oversizePieces]
    split
    · simp
    · rename_i h
      push_neg at h
      have hlen : (l.drop maxSize).length ≤ n := by
        rw [List.length_drop]
        have h1 : l ≠ [] := h.1
        have h2 : maxSize ≠ 0 := h.2
        have : 0 < l.length := List.length_pos.mpr h1
        omega
      obtain ⟨hk, hmem, hpw⟩ := ih (l.drop maxSize) hlen (k + 1)
      rcases hrec : oversizePieces fp lang maxSize sl (l.drop maxSize) (k + 1) with ⟨rest, idx⟩
      rw [hrec] at hk hmem hpw
      simp only [hrec]
      refine ⟨by omega, ?_, ?_⟩
      · intro c hc
        rcases List.mem_cons.mp hc with rfl | hc
        · exact ⟨le_rfl, show k < idx by omega⟩
        · obtain ⟨h1, h2⟩ := hmem c hc
          exact ⟨by omega, h2⟩
      · refine List.Pairwise.cons ?_ hpw
        intro c hc
        exact lt_of_lt_of_le (Nat.lt_succ_self k) (hmem c hc).1

/-- Index discipline of the inner accumulation loop of chunkByLines. -/
theorem linesTake_idx (fp lang : Str) (maxSize : Nat) (sl : Int) :
    ∀ (rest : List Str) (ch : Str) (k : Nat),
      k ≤ (linesTake fp lang maxSize sl rest ch k).2.2.2 ∧
      (∀ c ∈ (linesTake fp lang maxSize sl rest ch k).1,
        k ≤ c.chunkIndex ∧ c.chunkIndex < (linesTake fp lang maxSize sl rest ch k).2.2.2) ∧
      List.Pairwise (fun a b => a.chunkIndex < b.chunkIndex)
        (linesTake fp lang maxSize sl rest ch k).1 := by
  intro rest
  induction rest with
  | nil => intro ch k; simp [linesTake]
  | cons line rest ih =>
    intro ch k
    rw [linesTake]
    split
    · obtain ⟨hk, hmem, hpw⟩ := oversizePieces_idx fp lang maxSize sl line.length line le_rfl k
      rcases hrec : oversizePieces fp lang maxSize sl line k with ⟨pieces, idx⟩
      rw [hrec] at hk hmem hpw
      simpa using ⟨hk, hmem, hpw⟩
    · split
      · simp
      · split
        · simp
        · obtain ⟨hk, hmem, hpw⟩ := ih (ch ++ line ++ ['\n']) k
          rcases hrec : linesTake fp lang maxSize sl rest (ch ++ line ++ ['\n']) k
            with ⟨pieces, chunk, consumed, idx⟩
          rw [hrec] at hk hmem hpw
          simpa using ⟨hk, hmem, hpw⟩

/-- Index discipline of the chunkByLines outer loop: all produced indices
are at least the incoming counter and strictly increase. -/
theorem chunkByLinesLoop_idx (fp lang : Str) (maxSize overlap : Nat) (lines : List Str) :
    ∀ (n i k : Nat), lines.length - i ≤ n →
      (∀ c ∈ chunkByLinesLoop fp lang maxSize overlap lines i k, k ≤ c.chunkIndex) ∧
      List.Pairwise (fun a b => a.chunkIndex < b.chunkIndex)
        (chunkByLinesLoop fp lang maxSize overlap lines i k) := by
  intro n
  induction n with
  | zero =>
    intro i k hn
    have hi : ¬ i < lines.length := by omega
    rw [chunkByLinesLoop, dif_neg hi]
    simp
  | succ n ih =>
    intro i k hn
    rw [chunkByLinesLoop]
    split
    · rename_i hi
      obtain ⟨hk, hmem, hpw⟩ := linesTake_idx fp lang maxSize (i + 1 : Nat) (lines.drop i) [] k
      rcases hrec : linesTake fp lang maxSize (i + 1 : Nat) (lines.drop i) [] k
        with ⟨pieces, chunk, consumed, idx⟩
      rw [hrec] at hk hmem hpw
      simp only [hrec]
      split
      · rename_i hchunk
        have hnext : lines.length - max (if 0 < overlap / 50 ∧ i + consumed < lines.length
            then max (i + consumed - overlap / 50) (i + 1) else i + consumed) (i + 1) ≤ n := by
          have : i + 1 ≤ max (if 0 < overlap / 50 ∧ i + consumed < lines.length
              then max (i + consumed - overlap / 50) (i + 1) else i + consumed) (i + 1) :=
            le_max_right _ _
          omega
        obtain ⟨ihmem, ihpw⟩ := ih _ (idx + 1) hnext
        constructor
        · intro c hc
          rcases List.mem_append.mp hc with hc | hc
          · exact (hmem c hc).1
          · rcases List.mem_cons.mp hc with rfl | hc
            · exact hk
            · exact le_trans hk (le_trans (Nat.le_succ idx) (ihmem c hc))
        · rw [List.pairwise_append]
          refine ⟨hpw, ?_, ?_⟩
          · refine List.Pairwise.cons ?_ ihpw
            intro c hc
            exact lt_of_lt_of_le (Nat.lt_succ_self idx) (ihmem c hc)
          · intro a ha b hb
            have ha' : a.chunkIndex < idx := (hmem a ha).2
            rcases List.mem_cons.mp hb with rfl | hb
            · exact ha'
            · exact lt_of_lt_of_le ha' (le_trans (Nat.le_succ idx) (ihmem b hb))
      · have hnext : lines.length - max (i + consumed) (i + 1) ≤ n := by
          have : i + 1 ≤ max (i + consumed) (i + 1) := le_max_right _ _
          omega
        obtain ⟨ihmem, ihpw⟩ := ih _ idx hnext
        constructor
        · intro c hc
          rcases List.mem_append.mp hc with hc | hc
          · exact (hmem c hc).1
          · exact le_trans hk (ihmem c hc)
        · rw [List.pairwise_append]
          refine ⟨hpw, ihpw, ?_⟩
          intro a ha b hb
          exact lt_of_lt_of_le (hmem a ha).2 (ihmem b hb)
    · simp

/-- Index discipline of one boundary-aware step. -/
theorem boundaryStep_idx (fp lang : Str) (isTop : Str → Bool) (maxSize overlap : Nat)
    (lines : List Str) (i : Nat) (line : Str) (st : BoundaryState)
    (hpw : List.Pairwise (fun a b => a.chunkIndex < b.chunkIndex) st.chunks)
    (hbd : ∀ c ∈ st.chunks, c.chunkIndex < st.chunkIdx) :
    List.Pairwise (fun a b => a.chunkIndex < b.chunkIndex)
      (boundaryStep fp lang isTop maxSize overlap lines i line st).chunks ∧
    (∀ c ∈ (boundaryStep fp lang isTop maxSize overlap lines i line st).chunks,
      c.chunkIndex < (boundaryStep fp lang isTop maxSize overlap lines i line st).chunkIdx) := by
  rw [boundaryStep]
  split
  · constructor
    · rw [List.pairwise_append]
      refine ⟨hpw, List.pairwise_singleton _ _, ?_⟩
      intro a ha b hb
      rcases List.mem_singleton.mp hb with rfl
      exact hbd a ha
    · intro c hc
      rcases List.mem_append.mp hc with hc | hc
      · exact lt_trans (hbd c hc) (Nat.lt_succ_self _)
      · rcases List.mem_singleton.mp hc with rfl
        exact Nat.lt_succ_self _
  · exact ⟨hpw, hbd⟩

/-- Index discipline of the boundary-aware loop. -/
theorem boundaryLoop_idx (fp lang : Str) (isTop : Str → Bool) (maxSize overlap : Nat)
    (lines : List Str) :
    ∀ (rest : List Str) (i : Nat) (st : BoundaryState),
      List.Pairwise (fun a b => a.chunkIndex < b.chunkIndex) st.chunks →
      (∀ c ∈ st.chunks, c.chunkIndex < st.chunkIdx) →
      List.Pairwise (fun a b => a.chunkIndex < b.chunkIndex)
        (boundaryLoop fp lang isTop maxSize overlap lines rest i st).chunks ∧
      (∀ c ∈ (boundaryLoop fp lang isTop maxSize overlap lines rest i st).chunks,
        c.chunkIndex < (boundaryLoop fp lang isTop maxSize overlap lines rest i st).chunkIdx) := by
  intro rest
  induction rest with
  | nil => intro i st hpw hbd; exact ⟨hpw, hbd⟩
  | cons line rest ih =>
    intro i st hpw hbd
    obtain ⟨h1, h2⟩ := boundaryStep_idx fp lang isTop maxSize overlap lines i line st hpw hbd
    exact ih (i + 1) _ h1 h2

/-- Index discipline of the boundary-aware chunkers. -/
theorem chunkBoundaryAware_idx (fp lang : Str) (isTop : Str → Bool) (content : Str)
    (maxSize overlap : Nat) :
    List.Pairwise (fun a b => a.chunkIndex < b.chunkIndex)
      (chunkBoundaryAware fp lang isTop content maxSize overlap) := by
  rw [chunkBoundaryAware]
  obtain ⟨hpw, hbd⟩ := boundaryLoop_idx fp lang isTop maxSize overlap (splitLines content)
    (splitLines content) 0
    { chunks := [], cur := [], currentLine := 1, chunkStart := 1, chunkIdx := 0 }
    (List.Pairwise.nil) (by simp)
  split
  · rw [List.pairwise_append]
    refine ⟨hpw, List.pairwise_singleton _ _, ?_⟩
    intro a ha b hb
    rcases List.mem_singleton.mp hb with rfl
    exact hbd a ha
  · exact hpw

/-- C6 (amended).  For every file path, content and language, the
chunk_index values of the chunks returned by ChunkFile are strictly
increasing in order of appearance — but (by the counterexample) not
necessarily the dense sequence 0..K-1, because chunks shorter than
MIN_CHUNK_CHARS are dropped after index assignment, which can leave gaps
and a non-zero first index. -/
theorem c6_chunk_index_strict_mono (filePath content language : Str) :
    List.Pairwise (fun a b => a.chunkIndex < b.chunkIndex)
      (ChunkFile filePath content language) := by
  rw [ChunkFile]
  split
  · exact List.pairwise_singleton _ _
  · rw [List.pairwise_map]
    have hbase : ∀ chunks : List CodeChunk,
        List.Pairwise (fun a b : CodeChunk => a.chunkIndex < b.chunkIndex) chunks →
        List.Pairwise (fun a b : CodeChunk => a.chunkIndex < b.chunkIndex)
          (chunks.filter (fun c => decide (500 ≤ c.content.length))) := by
      intro chunks h
      exact h.sublist (List.filter_sublist chunks)
    split
    · exact hbase _ (chunkBoundaryAware_idx _ _ _ _ _ _)
    · split
      · exact hbase _ (chunkBoundaryAware_idx _ _ _ _ _ _)
      · exact hbase _ (by
          rw [chunkByLines]
          exact (chunkByLinesLoop_idx filePath language (charsForTokens MaxTokensPerChunk)
            (charsForTokens OverlapTokens) (splitLines content)
            (splitLines content).length 0 0 (by omega)).2)

/-! ## Chunker nonemptiness (claim C9) -/

theorem sumLen1_cons (l : Str) (t : List Str) :
    sumLen1 (l :: t) = l.length + 1 + sumLen1 t := rfl

theorem sumLen1_drop_le (m : List Str) : ∀ k, sumLen1 (m.drop k) ≤ sumLen1 m := by
  induction m with
  | nil => intro k; simp
  | cons x t ih =>
    intro k
    cases k with
    | zero => exact le_rfl
    | succ k =>
      rw [List.drop_succ_cons]
      exact le_trans (ih k) (by rw [sumLen1_cons]; omega)

/-- One boundary-aware step preserves the size invariant: either a saved
chunk is already large, or the builder is large, or the builder holds
everything consumed so far. -/
theorem boundaryStep_big (fp lang : Str) (isTop : Str → Bool) (maxSize overlap : Nat)
    (lines : List Str) (i : Nat) (line : Str) (st : BoundaryState) (consumed : Nat)
    (hms : 1000 ≤ maxSize)
    (hinv : (∃ c ∈ st.chunks, 500 ≤ c.content.length) ∨ 500 ≤ st.cur.length ∨
      st.cur.length = consumed) :
    (∃ c ∈ (boundaryStep fp lang isTop maxSize overlap lines i line st).chunks,
        500 ≤ c.content.length) ∨
    500 ≤ (boundaryStep fp lang isTop maxSize overlap lines i line st).cur.length ∨
    (boundaryStep fp lang isTop maxSize overlap lines i line st).cur.length =
      consumed + (line.length + 1) := by
  rw [boundaryStep]
  split
  · rename_i hcond
    simp only [Bool.and_eq_true, Bool.or_eq_true, decide_eq_true_eq] at hcond
    obtain ⟨hsplit, hpos⟩ := hcond
    rcases hinv with ⟨c, hc, h5⟩ | h5 | hconsumed
    · exact Or.inl ⟨c, List.mem_append_left _ hc, h5⟩
    · exact Or.inl ⟨_, List.mem_append_right _ (List.mem_singleton_self _), h5⟩
    · by_cases hcur : 500 ≤ st.cur.length
      · exact Or.inl ⟨_, List.mem_append_right _ (List.mem_singleton_self _), hcur⟩
      · rcases hsplit with ⟨hexceed, _⟩ | hhard
        · refine Or.inr (Or.inl ?_)
          simp only [List.length_append, List.length_cons, List.length_nil]
          omega
        · omega
  · rcases hinv with ⟨c, hc, h5⟩ | h5 | hconsumed
    · exact Or.inl ⟨c, hc, h5⟩
    · refine Or.inr (Or.inl ?_)
      simp only [List.length_append, List.length_cons, List.length_nil]
      omega
    · refine Or.inr (Or.inr ?_)
      simp only [List.length_append, List.length_cons, List.length_nil]
      omega

/-- The boundary-aware loop maintains the size invariant, the consumed
total growing by the processed lines. -/
theorem boundaryLoop_big (fp lang : Str) (isTop : Str → Bool) (maxSize overlap : Nat)
    (lines : List Str) (hms : 1000 ≤ maxSize) :
    ∀ (rest : List Str) (i : Nat) (st : BoundaryState) (consumed : Nat),
      ((∃ c ∈ st.chunks, 500 ≤ c.content.length) ∨ 500 ≤ st.cur.length ∨
        st.cur.length = consumed) →
      (∃ c ∈ (boundaryLoop fp lang isTop maxSize overlap lines rest i st).chunks,
          500 ≤ c.content.length) ∨
      500 ≤ (boundaryLoop fp lang isTop maxSize overlap lines rest i st).cur.length ∨
      (boundaryLoop fp lang isTop maxSize overlap lines rest i st).cur.length =
        consumed + sumLen1 rest := by
  intro rest
  induction rest with
  | nil =>
    intro i st consumed hinv
    rcases hinv with h | h | h
    · exact Or.inl h
    · exact Or.inr (Or.inl h)
    · exact Or.inr (Or.inr (by rw [boundaryLoop, h]; rfl))
  | cons line rest ih =>
    intro i st consumed hinv
    rw [boundaryLoop]
    have hstep := boundaryStep_big fp lang isTop maxSize overlap lines i line st consumed hms hinv
    have := ih (i + 1) (boundaryStep fp lang isTop maxSize overlap lines i line st)
      (consumed + (line.length + 1)) hstep
    rcases this with h | h | h
    · exact Or.inl h
    · exact Or.inr (Or.inl h)
    · refine Or.inr (Or.inr ?_)
      rw [h, sumLen1_cons]
      omega

/-- A boundary-aware chunker on content of at least 499 characters always
produces some chunk of at least MIN_CHUNK_CHARS characters. -/
theorem chunkBoundaryAware_big (fp lang : Str) (isTop : Str → Bool) (content : Str)
    (maxSize overlap : Nat) (hms : 1000 ≤ maxSize) (hlen : 499 ≤ content.length) :
    ∃ c ∈ chunkBoundaryAware fp lang isTop content maxSize overlap,
      500 ≤ c.content.length := by
  rw [chunkBoundaryAware]
  have hloop := boundaryLoop_big fp lang isTop maxSize overlap (splitLines content) hms
    (splitLines content) 0
    { chunks := [], cur := [], currentLine := 1, chunkStart := 1, chunkIdx := 0 } 0
    (Or.inr (Or.inr rfl))
  rw [Nat.zero_add, sumLen1_splitLines] at hloop
  rcases hloop with ⟨c, hc, h5⟩ | h5 | hall
  · split
    · exact ⟨c, List.mem_append_left _ hc, h5⟩
    · exact ⟨c, hc, h5⟩
  · rw [if_pos (by omega)]
    exact ⟨_, List.mem_append_right _ (List.mem_singleton_self _), h5⟩
  · rw [if_pos (by omega)]
    refine ⟨_, List.mem_append_right _ (List.mem_singleton_self _), ?_⟩
    simp only [hall]
    omega

/-- The head piece of an oversized-line split has exactly maxSize
characters. -/
theorem oversizePieces_head (fp lang : Str) (maxSize : Nat) (sl : Int) (l : Str) (k : Nat)
    (hms : 0 < maxSize) (hl : maxSize < l.length) :
    ∃ p ∈ (oversizePieces fp lang maxSize sl l k).1, p.content.length = maxSize := by
  rw [oversizePieces, dif_neg (by
    push_neg
    constructor
    · intro h
      rw [h] at hl
      simp at hl
    · omega)]
  rcases oversizePieces fp lang maxSize sl (l.drop maxSize) (k + 1) with ⟨rest, idx⟩
  refine ⟨_, List.mem_cons_self _ _, ?_⟩
  simp only [List.length_take]
  omega

/-- Behaviour of the inner accumulation loop of chunkByLines: either the
oversized-line path emitted a chunk of exactly maxSize characters, or no
piece was emitted and the accumulated chunk holds exactly the consumed
lines, stopping only on exhaustion or at a line that no longer fits. -/
theorem linesTake_big (fp lang : Str) (maxSize : Nat) (sl : Int) (hms : 0 < maxSize) :
    ∀ (rest : List Str) (ch : Str) (k : Nat),
      (∃ p ∈ (linesTake fp lang maxSize sl rest ch k).1,
        p.content.length = maxSize) ∨
      ((linesTake fp lang maxSize sl rest ch k).1 = [] ∧
       (linesTake fp lang maxSize sl rest ch k).2.1.length =
         ch.length + sumLen1 (rest.take (linesTake fp lang maxSize sl rest ch k).2.2.1) ∧
       ((linesTake fp lang maxSize sl rest ch k).2.2.1 = rest.length ∨
        ∃ L rest', rest.drop (linesTake fp lang maxSize sl rest ch k).2.2.1 = L :: rest' ∧
          ((0 < (linesTake fp lang maxSize sl rest ch k).2.1.length ∧
            maxSize < (linesTake fp lang maxSize sl rest ch k).2.1.length + L.length + 1) ∨
           maxSize ≤ (linesTake fp lang maxSize sl rest ch k).2.1.length))) := by
  intro rest
  induction rest with
  | nil =>
    intro ch k
    refine Or.inr ⟨rfl, ?_, Or.inl rfl⟩
    simp [linesTake, sumLen1]
  | cons line rest ih =>
    intro ch k
    rw [linesTake]
    split
    · rename_i hover
      obtain ⟨hlong, hempty⟩ := hover
      have hhead := oversizePieces_head fp lang maxSize sl line k hms (by omega)
      rcases hrec : oversizePieces fp lang maxSize sl line k with ⟨pieces, idx⟩
      rw [hrec] at hhead
      exact Or.inl hhead
    · split
      · rename_i hstop
        refine Or.inr ⟨rfl, by simp [sumLen1], Or.inr ⟨line, rest, rfl, Or.inl hstop⟩⟩
      · split
        · rename_i hhard
          refine Or.inr ⟨rfl, by simp [sumLen1], Or.inr ⟨line, rest, rfl, Or.inr hhard⟩⟩
        · rcases hrec : linesTake fp lang maxSize sl rest (ch ++ line ++ ['\n']) k
            with ⟨pieces, chunk, consumed, idx⟩
          have spec := ih (ch ++ line ++ ['\n']) k
          rw [hrec] at spec
          rcases spec with ⟨p, hp, hplen⟩ | ⟨hpieces, hlen, hstop⟩
          · exact Or.inl ⟨p, hp, hplen⟩
          · dsimp only at hpieces hlen hstop
            refine Or.inr ⟨hpieces, ?_, ?_⟩
            · simp only [List.take_succ_cons, sumLen1_cons]
              simp only [List.length_append, List.length_cons, List.length_nil] at hlen
              omega
            · rcases hstop with h | ⟨L, rest', hdrop, hcond⟩
              · exact Or.inl (by rw [h, List.length_cons])
              · exact Or.inr ⟨L, rest', by rw [List.drop_succ_cons]; exact hdrop, hcond⟩

/-- The chunkByLines outer loop always produces a chunk of at least 500
characters as long as at least 500 characters' worth of lines remain. -/
theorem chunkByLinesLoop_big (fp lang : Str) (maxSize overlap : Nat) (lines : List Str)
    (hms : 1000 ≤ maxSize) :
    ∀ (n i k : Nat), lines.length - i ≤ n → 500 ≤ sumLen1 (lines.drop i) →
      ∃ c ∈ chunkByLinesLoop fp lang maxSize overlap lines i k,
        500 ≤ c.content.length := by
  intro n
  induction n with
  | zero =>
    intro i k hn hbig
    have : lines.length ≤ i := by omega
    rw [List.drop_eq_nil_of_le this] at hbig
    simp [sumLen1] at hbig
  | succ n ih =>
    intro i k hn hbig
    rw [chunkByLinesLoop]
    split
    · rename_i hi
      have spec := linesTake_big fp lang maxSize (i + 1 : Nat) (by omega) (lines.drop i) [] k
      rcases hrec : linesTake fp lang maxSize (i + 1 : Nat) (lines.drop i) [] k
        with ⟨pieces, chunk, consumed, idx⟩
      rw [hrec] at spec
      simp only [hrec]
      rcases spec with ⟨p, hp, hplen⟩ | ⟨hpieces, hlen, hstop⟩
      · split
        · exact ⟨p, List.mem_append_left _ hp, by omega⟩
        · exact ⟨p, List.mem_append_left _ hp, by omega⟩
      · dsimp only at hpieces hlen hstop
        simp only [List.length_nil, Nat.zero_add] at hlen
        by_cases hch : 500 ≤ chunk.length
        · rw [if_pos (by omega)]
          exact ⟨_, List.mem_append_right _ (List.mem_cons_self _ _), hch⟩
        · rcases hstop with hexhaust | ⟨L, rest', hdrop, hcond⟩
          · exfalso
            rw [hexhaust, List.take_length] at hlen
            omega
          · rcases hcond with ⟨hpos, hexceed⟩ | hhard
            · have hconsumed : 1 ≤ consumed := by
                by_contra hc0
                have hc : consumed = 0 := by omega
                rw [hc, List.take_zero, show sumLen1 [] = 0 from rfl] at hlen
                omega
              have hLbig : 500 ≤ L.length + 1 := by omega
              have hdropfull : lines.drop (i + consumed) = L :: rest' := by
                rw [← hdrop, ← List.drop_drop]
              have hRnext : ∀ j, j ≤ i + consumed → 500 ≤ sumLen1 (lines.drop j) := by
                intro j hj
                have h1 : sumLen1 (lines.drop (i + consumed)) ≤ sumLen1 (lines.drop j) := by
                  have : lines.drop (i + consumed) = (lines.drop j).drop (i + consumed - j) := by
                    rw [List.drop_drop]
                    congr 1
                    omega
                  rw [this]
                  exact sumLen1_drop_le _ _
                rw [hdropfull, sumLen1_cons] at h1
                omega
              rw [if_pos hpos]
              set iNext := max (if 0 < overlap / 50 ∧ i + consumed < lines.length
                then max (i + consumed - overlap / 50) (i + 1) else i + consumed) (i + 1) with hiNext
              have hle : iNext ≤ i + consumed := by
                rw [hiNext]
                split
                · omega
                · omega
              have hge : i + 1 ≤ iNext := le_max_right _ _
              obtain ⟨c, hc, h5⟩ := ih iNext (idx + 1) (by omega) (hRnext iNext hle)
              exact ⟨c, List.mem_append_right _ (List.mem_cons_of_mem _ hc), h5⟩
            · omega
    · rename_i hi
      exfalso
      rw [List.drop_eq_nil_of_le (by omega)] at hbig
      simp [sumLen1] at hbig

/-- C9.  For every file path, content string and language — including empty
content — ChunkFile returns at least one chunk: small files yield the
whole-file chunk, and for chunked files at least one produced chunk reaches
MIN_CHUNK_CHARS characters and survives the size filter. -/
theorem c9_chunkfile_nonempty (filePath content language : Str) :
    ChunkFile filePath content language ≠ [] := by
  rw [ChunkFile]
  split
  · simp
  · rename_i hbig
    have hlen : 12801 ≤ content.length := by
      simp only [estimateTokens, MaxTokensWholeFile, not_le] at hbig
      omega
    have key : ∀ chunks : List CodeChunk, (∃ c ∈ chunks, 500 ≤ c.content.length) →
        (chunks.filter (fun c => decide (500 ≤ c.content.length))).map
          (fun c => { c with chunkID := generateChunkID filePath c.startLine c.endLine }) ≠
          [] := by
      intro chunks hex hmap
      obtain ⟨c, hc, h5⟩ := hex
      rw [List.map_eq_nil] at hmap
      have hmem : c ∈ chunks.filter (fun c => decide (500 ≤ c.content.length)) :=
        List.mem_filter.mpr ⟨hc, by simpa using h5⟩
      rw [hmap] at hmem
      exact absurd hmem (List.not_mem_nil c)
    have hms : 1000 ≤ charsForTokens MaxTokensPerChunk := by
      norm_num [charsForTokens, MaxTokensPerChunk]
    split
    · exact key _ (chunkBoundaryAware_big _ _ _ _ _ _ hms (by omega))
    · split
      · exact key _ (chunkBoundaryAware_big _ _ _ _ _ _ hms (by omega))
      · refine key _ ?_
        rw [chunkByLines]
        refine chunkByLinesLoop_big filePath language (charsForTokens MaxTokensPerChunk)
          (charsForTokens OverlapTokens) (splitLines content) hms
          (splitLines content).length 0 0 (by omega) ?_
        rw [List.drop_zero, sumLen1_splitLines]
        omega

/-- The budget loop never discards selections already made: with a
non-empty accumulator the result is non-empty. -/
theorem selectLoop_ne_nil (config : SearchConfig) :
    ∀ (cands : List FileCandidate) (selected : List FileSelection) (cum : Nat),
      selected ≠ [] → selectLoop config cands selected cum ≠ [] := by
  intro cands
  induction cands with
  | nil =>
    intro selected cum h
    simpa only [selectLoop] using h
  | cons a rest ih =>
    intro selected cum h
    simp only [selectLoop]
    split
    · exact h
    · split
      · exact ih _ _ (by simp)
      · split
        · split
          · exact ih _ _ (by simp)
          · exact ih _ _ h
        · exact ih _ _ h

/-- If the budget loop starts with an empty accumulator and returns the
empty selection, every candidate it saw was skipped: its full token
estimate exceeds the remaining budget and the top-K fallback fails too. -/
theorem selectLoop_eq_nil_skip (config : SearchConfig) (hm : 0 < config.maxFilesLimit) :
    ∀ (cands : List FileCandidate) (cum : Nat),
      selectLoop config cands [] cum = [] →
      ∀ c ∈ cands,
        ¬ ((c.estimatedTokens : Int) ≤ config.effectiveTokenBudget - (cum : Int)) ∧
          (c.chunkCount = 0 ∨
            ¬ (((c.estimatedTokens / c.chunkCount * min config.oversizeChunkLimit c.chunkCount : Nat) : Int) ≤
                  config.effectiveTokenBudget - (cum : Int) ∧
                0 < min config.oversizeChunkLimit c.chunkCount)) := by
  intro cands
  induction cands with
  | nil =>
    intro cum h c hc
    exact absurd hc (List.not_mem_nil c)
  | cons a rest ih =>
    intro cum h c hc
    simp only [selectLoop, List.length_nil] at h
    rw [if_neg (by omega)] at h
    by_cases h1 : (a.estimatedTokens : Int) ≤ config.effectiveTokenBudget - (cum : Int)
    · rw [if_pos h1] at h
      exact absurd h (selectLoop_ne_nil config rest _ _ (by simp))
    · rw [if_neg h1] at h
      by_cases h2 : 0 < a.chunkCount
      · rw [if_pos h2] at h
        by_cases h3 :
            ((a.estimatedTokens / a.chunkCount * min config.oversizeChunkLimit a.chunkCount : Nat) : Int) ≤
                config.effectiveTokenBudget - (cum : Int) ∧
              0 < min config.oversizeChunkLimit a.chunkCount
        · rw [if_pos h3] at h
          exact absurd h (selectLoop_ne_nil config rest _ _ (by simp))
        · rw [if_neg h3] at h
          rcases List.mem_cons.mp hc with hca | hcr
          · subst hca
            exact ⟨h1, Or.inr h3⟩
          · exact ih cum h c hcr
      · rw [if_neg h2] at h
        rcases List.mem_cons.mp hc with hca | hcr
        · subst hca
          exact ⟨h1, Or.inl (by omega)⟩
        · exact ih cum h c hcr

/-- Every value the adaptive threshold can take other than the bare floor
is an element of the sorted best-score list; consequently, if every
candidate scores strictly below the threshold, the threshold is the floor
min_absolute_score and the relaxation was impossible, i.e. there are fewer
candidates than min_files_after_threshold. -/
theorem adaptive_threshold_all_below (cands : List FileCandidate) (config : SearchConfig)
    (hmin : 1 ≤ config.minFilesAfterThreshold) (hne : cands ≠ [])
    (hall : ∀ c ∈ cands, c.bestChunkScore < calculateAdaptiveThreshold cands config) :
    (∀ c ∈ cands, c.bestChunkScore < config.minAbsoluteScore) ∧
      cands.length < config.minFilesAfterThreshold := by
  have hperm : List.Perm (sortedBestScores cands) (cands.map (fun c => c.bestChunkScore)) :=
    List.perm_insertionSort _ _
  have hlen : (sortedBestScores cands).length = cands.length := by
    rw [hperm.length_eq, List.length_map]
  have hlenpos : 0 < cands.length := List.length_pos.mpr hne
  have hnotmem : calculateAdaptiveThreshold cands config ∉ sortedBestScores cands := by
    intro hx
    have hx' := hperm.subset hx
    rw [List.mem_map] at hx'
    obtain ⟨c, hc, he⟩ := hx'
    exact absurd (he ▸ hall c hc) (lt_irrefl _)
  have hb : ¬ (cands.isEmpty = true) := by
    rw [List.isEmpty_iff]
    exact hne
  have hTdef : calculateAdaptiveThreshold cands config =
      if (sortedBestScores cands).countP
            (fun s => decide (max (distributionThresholdOf cands config)
              config.minAbsoluteScore ≤ s)) < config.minFilesAfterThreshold ∧
          config.minFilesAfterThreshold ≤ (sortedBestScores cands).length then
        (sortedBestScores cands).getD
          ((sortedBestScores cands).length - config.minFilesAfterThreshold) 0
      else max (distributionThresholdOf cands config) config.minAbsoluteScore := by
    simp only [calculateAdaptiveThreshold]
    rw [if_neg hb]
  split at hTdef
  · rename_i hrel
    exfalso
    apply hnotmem
    have hidx : (sortedBestScores cands).length - config.minFilesAfterThreshold <
        (sortedBestScores cands).length := by omega
    rw [hTdef, List.getD_eq_getElem _ _ hidx]
    exact List.getElem_mem hidx
  · rename_i hrel
    rcases le_or_lt config.minAbsoluteScore (distributionThresholdOf cands config) with hd | hd
    · exfalso
      apply hnotmem
      have hidx : percentileIdxOf cands config < (sortedBestScores cands).length := by
        have h1 : percentileIdxOf cands config ≤
            (cands.map (fun c => c.bestChunkScore)).length - 1 := min_le_right _ _
        rw [List.length_map] at h1
        omega
      rw [hTdef, max_eq_left hd, distributionThresholdOf, List.getD_eq_getElem _ _ hidx]
      exact List.getElem_mem hidx
    · have hTfloor : calculateAdaptiveThreshold cands config = config.minAbsoluteScore := by
        rw [hTdef, max_eq_right hd.le]
      have hbelow : ∀ c ∈ cands, c.bestChunkScore < config.minAbsoluteScore := by
        intro c hc
        have := hall c hc
        rwa [hTfloor] at this
      refine ⟨hbelow, ?_⟩
      have hs0 : (sortedBestScores cands).countP
          (fun s => decide (max (distributionThresholdOf cands config)
            config.minAbsoluteScore ≤ s)) = 0 := by
        rw [hperm.countP_eq, List.countP_map]
        rw [List.countP_eq_zero]
        intro c hc
        simp only [Function.comp, decide_eq_true_eq]
        intro hle
        exact absurd (lt_of_le_of_lt (le_trans (le_max_right _ _) hle) (hbelow c hc))
          (lt_irrefl _)
      rw [hs0] at hrel
      push_neg at hrel
      have := hrel (by omega)
      omega

/-- C3 (amended).  For every retrieval whose vector search returns a
non-empty raw result list (and whose configuration has at least one
guaranteed threshold survivor and a positive file limit), either (a) the
final file selection is non-empty, or (b) every file candidate has
best_chunk_score below min_absolute_score and there are fewer candidates
than min_files_after_threshold, or (c) — the case the spec omits — some
candidate survives the threshold but every surviving candidate is skipped
by the token budget loop: its estimated tokens exceed the effective budget
and the oversized top-K fallback does not fit either. -/
theorem c3_empty_selection_characterized
    (config : SearchConfig) (mathLog : ℚ → ℚ)
    (fetch : Str → Option (List SearchResult))
    (rawResults : List SearchResult) (keywords : List Str)
    (hraw : rawResults ≠ [])
    (hmin : 1 ≤ config.minFilesAfterThreshold)
    (hmax : 0 < config.maxFilesLimit) :
    searchSelections config mathLog fetch rawResults keywords ≠ [] ∨
    ((∀ c ∈ buildFileCandidates mathLog fetch rawResults keywords,
        c.bestChunkScore < config.minAbsoluteScore) ∧
      (buildFileCandidates mathLog fetch rawResults keywords).length <
        config.minFilesAfterThreshold) ∨
    (thresholdFiltered config mathLog fetch rawResults keywords ≠ [] ∧
      ∀ c ∈ thresholdFiltered config mathLog fetch rawResults keywords,
        candidateSkipped config c) := by
  by_cases hsel : searchSelections config mathLog fetch rawResults keywords = []
  case neg => exact Or.inl hsel
  have hunf : searchSelections config mathLog fetch rawResults keywords =
      if (thresholdFiltered config mathLog fetch rawResults keywords).isEmpty then []
      else selectFilesWithinBudget
        (applyHybridScoring (thresholdFiltered config mathLog fetch rawResults keywords)
          keywords config) config := rfl
  rw [hunf] at hsel
  by_cases hfe : (thresholdFiltered config mathLog fetch rawResults keywords).isEmpty = true
  · right; left
    have hfnil : thresholdFiltered config mathLog fetch rawResults keywords = [] :=
      List.isEmpty_iff.mp hfe
    have hfil : ∀ c ∈ buildFileCandidates mathLog fetch rawResults keywords,
        c.bestChunkScore <
          calculateAdaptiveThreshold (buildFileCandidates mathLog fetch rawResults keywords)
            config := by
      rw [thresholdFiltered] at hfnil
      rw [List.filter_eq_nil] at hfnil
      intro c hc
      have := hfnil c hc
      simp only [decide_eq_true_eq] at this
      exact lt_of_not_le this
    by_cases hc0 : buildFileCandidates mathLog fetch rawResults keywords = []
    · refine ⟨?_, ?_⟩
      · rw [hc0]
        intro c hc
        exact absurd hc (List.not_mem_nil c)
      · rw [hc0]
        simpa using hmin
    · exact adaptive_threshold_all_below _ config hmin hc0 hfil
  · right; right
    have hfne : thresholdFiltered config mathLog fetch rawResults keywords ≠ [] := by
      intro h0
      exact hfe (by rw [h0]; rfl)
    refine ⟨hfne, ?_⟩
    rw [if_neg hfe] at hsel
    rw [selectFilesWithinBudget] at hsel
    intro c hc
    have hmem1 : ∃ d ∈ applyHybridScoring
        (thresholdFiltered config mathLog fetch rawResults keywords) keywords config,
        d.estimatedTokens = c.estimatedTokens ∧ d.chunkCount = c.chunkCount := by
      simp only [applyHybridScoring]
      exact ⟨_, List.mem_map_of_mem _ hc, rfl, rfl⟩
    obtain ⟨d, hd, hde, hdc⟩ := hmem1
    have hd2 : d ∈ List.insertionSort (fun a b : FileCandidate => b.hybridScore ≤ a.hybridScore)
        (applyHybridScoring (thresholdFiltered config mathLog fetch rawResults keywords)
          keywords config) :=
      (List.perm_insertionSort _ _).symm.subset hd
    have hskip := selectLoop_eq_nil_skip config hmax _ 0 hsel d hd2
    rw [hde, hdc] at hskip
    simp only [Nat.cast_zero, sub_zero] at hskip
    exact hskip

/-- A single candidate whose full estimate and top-K fallback both exceed
the budget is skipped, leaving the selection empty. -/
theorem selectLoop_single_skip (config : SearchConfig) (c : FileCandidate)
    (h1 : ¬ ((c.estimatedTokens : Int) ≤ config.effectiveTokenBudget - ((0 : Nat) : Int)))
    (h3 : ¬ (((c.estimatedTokens / c.chunkCount * min config.oversizeChunkLimit c.chunkCount : Nat) : Int) ≤
          config.effectiveTokenBudget - ((0 : Nat) : Int) ∧
        0 < min config.oversizeChunkLimit c.chunkCount)) :
    selectFilesWithinBudget [c] config = [] := by
  rw [selectFilesWithinBudget]
  simp only [List.insertionSort, List.orderedInsert]
  simp only [selectLoop, List.length_nil]
  by_cases hm : config.maxFilesLimit ≤ 0
  · rw [if_pos hm]
  · rw [if_neg hm, if_neg h1]
    by_cases h2 : 0 < c.chunkCount
    · rw [if_pos h2, if_neg h3]
    · rw [if_neg h2]

/-- C3 (counterexample).  A vector search returning one raw chunk whose
token estimate (50000) exceeds the effective budget (80000 − 35000 =
45000): SearchWithAggregation returns the empty selection — refuting
disjunct (a) — while the sole candidate's best_chunk_score 0.9 is above
min_absolute_score 0.15 — refuting disjunct (b). -/
theorem c3_selection_counterexample :
    ([c3BigResult] : List SearchResult) ≠ [] ∧
    searchWithAggregation DefaultSearchConfig c3Log c3Fetch (.ok [c3BigResult]) [] =
      .ok [] ∧
    ∃ c ∈ buildFileCandidates c3Log c3Fetch [c3BigResult] (extractKeywords []),
      DefaultSearchConfig.minAbsoluteScore ≤ c.bestChunkScore := by
  have hkw : extractKeywords ([] : Str) = [] := rfl
  have hbuild : buildFileCandidates c3Log c3Fetch [c3BigResult] [] = [c3Candidate] := rfl
  have hest0 : estimateTokens c3BigResult.content = 50000 := by
    rw [estimateTokens]
    rw [show c3BigResult.content = List.replicate 200000 'x' from rfl]
    rw [List.length_replicate]
  have hest : c3Candidate.estimatedTokens = 50000 := hest0
  have hthr : calculateAdaptiveThreshold [c3Candidate] DefaultSearchConfig = 9/10 := by
    norm_num [calculateAdaptiveThreshold, percentileIdxOf, distributionThresholdOf,
      sortedBestScores, c3Candidate, DefaultSearchConfig,
      List.insertionSort, List.orderedInsert, List.countP, List.countP.go, Int.toNat]
  have happ : applyHybridScoring [c3Candidate] [] DefaultSearchConfig = [c3Hybrid] := rfl
  have hestH : c3Hybrid.estimatedTokens = 50000 := hest
  have hccH : c3Hybrid.chunkCount = 1 := rfl
  have hbudget : DefaultSearchConfig.effectiveTokenBudget = 45000 := by
    norm_num [SearchConfig.effectiveTokenBudget, DefaultSearchConfig]
  have hloop : selectFilesWithinBudget [c3Hybrid] DefaultSearchConfig = [] := by
    refine selectLoop_single_skip DefaultSearchConfig c3Hybrid ?_ ?_
    · rw [hestH, hbudget]
      norm_num
    · rw [hestH, hccH, hbudget]
      norm_num [DefaultSearchConfig]
  have hfil : thresholdFiltered DefaultSearchConfig c3Log c3Fetch [c3BigResult] [] =
      [c3Candidate] := by
    simp only [thresholdFiltered]
    rw [hbuild, hthr]
    rw [List.filter_eq_self]
    intro a ha
    rw [List.mem_singleton] at ha
    subst ha
    simp only [decide_eq_true_eq]
    norm_num [c3Candidate]
  have hsel : searchSelections DefaultSearchConfig c3Log c3Fetch [c3BigResult] [] = [] := by
    have hunf : searchSelections DefaultSearchConfig c3Log c3Fetch [c3BigResult] [] =
        if (thresholdFiltered DefaultSearchConfig c3Log c3Fetch [c3BigResult] []).isEmpty then []
        else selectFilesWithinBudget
          (applyHybridScoring (thresholdFiltered DefaultSearchConfig c3Log c3Fetch [c3BigResult] [])
            [] DefaultSearchConfig) DefaultSearchConfig := rfl
    rw [hunf, hfil]
    rw [if_neg (by simp : ¬ (([c3Candidate] : List FileCandidate).isEmpty = true))]
    rw [happ]
    exact hloop
  refine ⟨by simp, ?_, ?_⟩
  · have hswa : searchWithAggregation DefaultSearchConfig c3Log c3Fetch (.ok [c3BigResult]) [] =
        if ([c3BigResult] : List SearchResult).isEmpty then Except.ok []
        else if (searchSelections DefaultSearchConfig c3Log c3Fetch [c3BigResult]
              (extractKeywords [])).isEmpty then Except.ok []
        else Except.ok (reconstructFiles DefaultSearchConfig c3Fetch
          (searchSelections DefaultSearchConfig c3Log c3Fetch [c3BigResult]
            (extractKeywords []))) := rfl
    rw [hswa]
    rw [if_neg (by simp : ¬ (([c3BigResult] : List SearchResult).isEmpty = true))]
    rw [hkw, hsel]
    rfl
  · rw [hkw, hbuild]
    exact ⟨c3Candidate, List.mem_singleton_self _, by norm_num [c3Candidate, DefaultSearchConfig]⟩

/-- Witness for the amended C3 theorem: a concrete retrieval with one small
raw result satisfies the hypotheses, and the conclusion holds there. -/
theorem c3_empty_selection_characterized_witness :
    (([smallResult] : List SearchResult) ≠ [] ∧
      1 ≤ DefaultSearchConfig.minFilesAfterThreshold ∧
      0 < DefaultSearchConfig.maxFilesLimit) ∧
    (searchSelections DefaultSearchConfig c3Log c3Fetch [smallResult] [] ≠ [] ∨
      ((∀ c ∈ buildFileCandidates c3Log c3Fetch [smallResult] [],
          c.bestChunkScore < DefaultSearchConfig.minAbsoluteScore) ∧
        (buildFileCandidates c3Log c3Fetch [smallResult] []).length <
          DefaultSearchConfig.minFilesAfterThreshold) ∨
      (thresholdFiltered DefaultSearchConfig c3Log c3Fetch [smallResult] [] ≠ [] ∧
        ∀ c ∈ thresholdFiltered DefaultSearchConfig c3Log c3Fetch [smallResult] [],
          candidateSkipped DefaultSearchConfig c)) :=
  ⟨⟨by simp, by norm_num [DefaultSearchConfig], by norm_num [DefaultSearchConfig]⟩,
    c3_empty_selection_characterized DefaultSearchConfig c3Log c3Fetch [smallResult] []
      (by simp) (by norm_num [DefaultSearchConfig]) (by norm_num [DefaultSearchConfig])⟩

end Mesh
